import Mathlib

/-!
Verification of the trivir repository's consistency core: the replicated
room-state store (last-write-wins resolution and signed event log), the
pure host-election function, and the trivia game state machine.

The TypeScript sources are shallowly embedded:
* JavaScript strings are Lean `String`s; `String.prototype.trim` and the
  `<` comparison on strings are re-implemented over `String.data` so that
  they evaluate inside the kernel.
* JavaScript numbers that the code only ever uses as integral timestamps,
  scores and indices are `Int` (or `Nat` for the round counter); inputs for
  which the code checks `Number.isFinite` / `Number.isInteger` are modelled
  by small inductive types with an explicit non-finite / non-integer case.
* A JavaScript `Map` is modelled either as an insertion-ordered association
  list (when the code iterates over it) or as a `String → Option _` view
  (when only per-key lookup matters).
* `Array.prototype.sort(cmp)` is modelled by a structurally recursive
  insertion sort: for the consistent comparator used by the code the sorted
  permutation is unique, so any sorting algorithm is a faithful model.
* Code that `throw`s returns `Except String` with the thrown message.
-/

namespace Trivir

/-! ### JavaScript string primitives -/

/-- `String.prototype.trim`: drop leading and trailing whitespace.
Implemented over the character list so the kernel can evaluate it. -/
def jsTrimList (l : List Char) : List Char :=
  ((l.dropWhile Char.isWhitespace).reverse.dropWhile Char.isWhitespace).reverse

/-- JavaScript `s.trim()`. -/
def jsTrim (s : String) : String :=
  String.mk (jsTrimList s.data)

/-- Code-point comparison of characters, as JavaScript compares string
code units. -/
def charLt (a b : Char) : Bool :=
  decide (a.toNat < b.toNat)

theorem uint32_toNat_inj {a b : UInt32} (h : a.toNat = b.toNat) : a = b := by
  cases a; cases b
  simp only [UInt32.toNat] at h
  congr 1
  exact BitVec.eq_of_toNat_eq h

theorem char_toNat_inj {a b : Char} (h : a.toNat = b.toNat) : a = b :=
  Char.ext (uint32_toNat_inj h)

/-- JavaScript `<` on strings, lexicographic by code unit, on char lists. -/
def strLtList : List Char → List Char → Bool
  | [], [] => false
  | [], _ :: _ => true
  | _ :: _, [] => false
  | a :: as, b :: bs => if a = b then strLtList as bs else charLt a b

/-- JavaScript `a < b` for strings. -/
def strLt (a b : String) : Bool :=
  strLtList a.data b.data

theorem strLtList_irrefl (l : List Char) : strLtList l l = false := by
  induction l with
  | nil => rfl
  | cons a as ih => simp [strLtList, ih]

theorem strLt_irrefl (s : String) : strLt s s = false :=
  strLtList_irrefl s.data

theorem strLtList_asymm {a b : List Char} (h : strLtList a b = true) :
    strLtList b a = false := by
  induction a generalizing b with
  | nil =>
    cases b with
    | nil => simp [strLtList] at h
    | cons y ys => simp [strLtList]
  | cons x xs ih =>
    cases b with
    | nil => simp [strLtList] at h
    | cons y ys =>
      by_cases hxy : x = y
      · subst hxy
        simp only [strLtList, if_pos rfl] at h ⊢
        exact ih h
      · have hyx : ¬ (y = x) := fun hc => hxy hc.symm
        simp only [strLtList, if_neg hxy] at h
        simp only [strLtList, if_neg hyx]
        simp only [charLt, decide_eq_true_eq] at h
        simp only [charLt, decide_eq_false_iff_not]
        omega

theorem strLt_asymm {a b : String} (h : strLt a b = true) : strLt b a = false :=
  strLtList_asymm h

theorem strLtList_trans {a b c : List Char} (hab : strLtList a b = true)
    (hbc : strLtList b c = true) : strLtList a c = true := by
  induction a generalizing b c with
  | nil =>
    cases b with
    | nil => simp [strLtList] at hab
    | cons y ys =>
      cases c with
      | nil => simp [strLtList] at hbc
      | cons z zs => simp [strLtList]
  | cons x xs ih =>
    cases b with
    | nil => simp [strLtList] at hab
    | cons y ys =>
      cases c with
      | nil => simp [strLtList] at hbc
      | cons z zs =>
        by_cases hxy : x = y
        · subst hxy
          simp only [strLtList, if_pos rfl] at hab
          by_cases hyz : x = z
          · subst hyz
            simp only [strLtList, if_pos rfl] at hbc ⊢
            exact ih hab hbc
          · simp only [strLtList, if_neg hyz] at hbc ⊢
            exact hbc
        · simp only [strLtList, if_neg hxy] at hab
          by_cases hyz : y = z
          · subst hyz
            simp only [strLtList, if_neg hxy]
            exact hab
          · simp only [strLtList, if_neg hyz] at hbc
            by_cases hxz : x = z
            · subst hxz
              simp only [charLt, decide_eq_true_eq] at hab hbc
              omega
            · simp only [strLtList, if_neg hxz]
              simp only [charLt, decide_eq_true_eq] at hab hbc ⊢
              omega

theorem strLt_trans {a b c : String} (hab : strLt a b = true)
    (hbc : strLt b c = true) : strLt a c = true :=
  strLtList_trans hab hbc

theorem strLtList_total {a b : List Char} (h : a ≠ b) :
    strLtList a b = true ∨ strLtList b a = true := by
  induction a generalizing b with
  | nil =>
    cases b with
    | nil => exact absurd rfl h
    | cons y ys => left; simp [strLtList]
  | cons x xs ih =>
    cases b with
    | nil => right; simp [strLtList]
    | cons y ys =>
      by_cases hxy : x = y
      · subst hxy
        have hne : xs ≠ ys := by
          intro hc; exact h (by simp [hc])
        rcases ih hne with h1 | h1
        · left; simpa [strLtList] using h1
        · right; simpa [strLtList] using h1
      · have hyx : ¬ (y = x) := fun hc => hxy hc.symm
        have hvne : x.toNat ≠ y.toNat := fun hv => hxy (char_toNat_inj hv)
        by_cases hlt : x.toNat < y.toNat
        · left
          simp only [strLtList, if_neg hxy, charLt, decide_eq_true_eq]
          exact hlt
        · right
          simp only [strLtList, if_neg hyx, charLt, decide_eq_true_eq]
          omega

theorem strLt_total {a b : String} (h : a ≠ b) :
    strLt a b = true ∨ strLt b a = true := by
  have hd : a.data ≠ b.data := fun hc => h (String.ext hc)
  exact strLtList_total hd

/-! ### A model of `Array.prototype.sort(cmp)`

JavaScript sorts in place with a user comparator; for a consistent
comparator the result is the sorted permutation of the input.  We model it
with an insertion sort, which evaluates in the kernel. -/

/-- Insert `x` into `l` in front of the first element it is `le` to. -/
def insertSorted (le : α → α → Bool) (x : α) : List α → List α
  | [] => [x]
  | y :: ys => if le x y then x :: y :: ys else y :: insertSorted le x ys

/-- Insertion sort with comparator-derived boolean order `le`. -/
def sortBy (le : α → α → Bool) : List α → List α
  | [] => []
  | x :: xs => insertSorted le x (sortBy le xs)

theorem insertSorted_perm (le : α → α → Bool) (x : α) (l : List α) :
    List.Perm (insertSorted le x l) (x :: l) := by
  induction l with
  | nil => simp [insertSorted]
  | cons y ys ih =>
    by_cases h : le x y = true
    · rw [insertSorted, if_pos h]
    · rw [insertSorted, if_neg h]
      exact (List.Perm.cons y ih).trans (List.Perm.swap x y ys)

theorem sortBy_perm (le : α → α → Bool) (l : List α) :
    List.Perm (sortBy le l) l := by
  induction l with
  | nil => simp [sortBy]
  | cons x xs ih =>
    exact ((insertSorted_perm le x (sortBy le xs)).trans (List.Perm.cons x ih))

theorem insertSorted_pairwise (le : α → α → Bool)
    (htotal : ∀ a b : α, le a b = true ∨ le b a = true)
    (htrans : ∀ a b c : α, le a b = true → le b c = true → le a c = true)
    (x : α) (l : List α)
    (hl : List.Pairwise (fun a b => le a b = true) l) :
    List.Pairwise (fun a b => le a b = true) (insertSorted le x l) := by
  induction l with
  | nil => simp [insertSorted]
  | cons y ys ih =>
    rcases hl with _ | ⟨hy, hys⟩
    by_cases h : le x y = true
    · rw [insertSorted, if_pos h]
      refine List.Pairwise.cons ?_ (List.Pairwise.cons hy hys)
      intro z hz
      rcases List.mem_cons.mp hz with rfl | hz
      · exact h
      · exact htrans x y z h (hy z hz)
    · rw [insertSorted, if_neg h]
      refine List.Pairwise.cons ?_ (ih hys)
      intro z hz
      rcases List.mem_cons.mp ((insertSorted_perm le x ys).mem_iff.mp hz) with rfl | hz
      · rcases htotal z y with h1 | h1
        · exact absurd h1 h
        · exact h1
      · exact hy z hz

theorem sortBy_pairwise (le : α → α → Bool)
    (htotal : ∀ a b : α, le a b = true ∨ le b a = true)
    (htrans : ∀ a b c : α, le a b = true → le b c = true → le a c = true)
    (l : List α) :
    List.Pairwise (fun a b => le a b = true) (sortBy le l) := by
  induction l with
  | nil => simp [sortBy]
  | cons x xs ih =>
    exact insertSorted_pairwise le htotal htrans x (sortBy le xs) ih

/-! ### Replicated room store (`packages/lib/state/db`)

Record types from the state-db `types.ts`.  `payload` is opaque to the
store, so it is modelled as a `String`.  SEA signatures are modelled
symbolically: a signature is the signed record together with the signer's
public key, and `SEA.verify` returns the signed record exactly when the
embedded public key matches (a perfect signature scheme). -/

structure PlayerState where
  id : String
  name : String
  joinedAt : Int
deriving DecidableEq, Repr

structure ScoreState where
  playerId : String
  score : Int
  updatedAt : Int
deriving DecidableEq, Repr

/-- The unsigned event record `{...event, timestamp}` that `appendEvent`
passes to `SEA.sign`. -/
structure EventRecord where
  id : String
  type : String
  payload : String
  timestamp : Int
deriving DecidableEq, Repr

/-- Symbolic SEA signature: the signed data plus the signing key's public
half.  `SEA.sign(record, keys)` produces `⟨record, keys.pub⟩`. -/
structure SeaSignature where
  data : EventRecord
  signedBy : String
deriving DecidableEq, Repr

structure EventLogEntry where
  id : String
  type : String
  payload : String
  timestamp : Int
  signature : Option SeaSignature
  publicKey : Option String
deriving DecidableEq, Repr

structure GunKeyPair where
  pub : String
  priv : String
deriving DecidableEq, Repr

/-- `SEA.sign(record, keys)`. -/
def seaSign (record : EventRecord) (keys : GunKeyPair) : SeaSignature :=
  ⟨record, keys.pub⟩

/-- `SEA.verify(signature, publicKey)`: returns the signed data when the
signature was produced by the key pair whose public half is `pub`. -/
def seaVerify (sig : SeaSignature) (pub : String) : Option EventRecord :=
  if sig.signedBy = pub then some sig.data else none

/-- The caller-supplied part of an event (`Omit<EventLogEntry, "timestamp">`
without signing metadata). -/
structure EventInput where
  id : String
  type : String
  payload : String
deriving DecidableEq, Repr

/-- `appendEvent`: builds `record = {...event, timestamp}`, signs it, and
stores `{...record, signature, publicKey: keys.pub}`.  Returns the stored
log entry. -/
def appendEvent (keys : GunKeyPair) (event : EventInput) (timestamp : Int) :
    EventLogEntry :=
  let record : EventRecord := ⟨event.id, event.type, event.payload, timestamp⟩
  { id := record.id, type := record.type, payload := record.payload,
    timestamp := record.timestamp,
    signature := some (seaSign record keys), publicKey := some keys.pub }

/-- `verifyEvent`: false without signature or public key (JavaScript
truthiness also rejects an empty public-key string); otherwise verifies the
signature and checks that the signed record's `id` and `timestamp` match
the envelope's. -/
def verifyEvent (event : EventLogEntry) : Bool :=
  match event.signature, event.publicKey with
  | some sig, some pub =>
    if pub = "" then false
    else
      match seaVerify sig pub with
      | none => false
      | some record =>
        decide (record.id = event.id) && decide (record.timestamp = event.timestamp)
  | _, _ => false

/-! The three `resolveLatest*` functions all fold records into a
`Map` keyed by a string id, keeping the later record when the incoming
timestamp is `>=` the stored one and skipping falsy keys.  We model the
map as its per-key lookup view. -/

/-- One step of the `resolveLatest*` loop: `if (!entry?.key) continue;`
then keep the incoming record when there is no stored one or its timestamp
is `>=` the stored one. -/
def lwwInsert (key : α → String) (ts : α → Int) (m : String → Option α)
    (r : α) : String → Option α :=
  if key r = "" then m
  else
    match m (key r) with
    | none => fun k => if k = key r then some r else m k
    | some existing =>
      if ts existing ≤ ts r then fun k => if k = key r then some r else m k
      else m

/-- The per-key view produced by folding a list of observed records. -/
def lwwView (key : α → String) (ts : α → Int) (records : List α) :
    String → Option α :=
  records.foldl (lwwInsert key ts) (fun _ => none)

/-- `resolveLatestPlayers`, keyed by `id` with version stamp `joinedAt`. -/
def resolveLatestPlayers (players : List PlayerState) :
    String → Option PlayerState :=
  lwwView (fun p => p.id) (fun p => p.joinedAt) players

/-- `resolveLatestScores`, keyed by `playerId` with version stamp
`updatedAt`. -/
def resolveLatestScores (scores : List ScoreState) :
    String → Option ScoreState :=
  lwwView (fun s => s.playerId) (fun s => s.updatedAt) scores

/-- `resolveLatestEvents`, keyed by `id` with version stamp `timestamp`.
(The source additionally sorts the resulting values by timestamp; the
per-key view is unaffected.) -/
def resolveLatestEvents (events : List EventLogEntry) :
    String → Option EventLogEntry :=
  lwwView (fun e => e.id) (fun e => e.timestamp) events

/-- No two distinct observed writes to the same key carry the same
timestamp. -/
def tieFree (key : α → String) (ts : α → Int) (l : List α) : Prop :=
  ∀ r ∈ l, ∀ s ∈ l, key r = key s → ts r = ts s → r = s

theorem lwwInsert_key_empty {key : α → String} {ts : α → Int}
    {m : String → Option α} {r : α} (h0 : key r = "") :
    lwwInsert key ts m r = m := by
  unfold lwwInsert
  rw [if_pos h0]

theorem lwwInsert_none {key : α → String} {ts : α → Int}
    {m : String → Option α} {r : α} (h0 : ¬ key r = "")
    (hm : m (key r) = none) :
    lwwInsert key ts m r = fun k => if k = key r then some r else m k := by
  unfold lwwInsert
  rw [if_neg h0, hm]

theorem lwwInsert_wins {key : α → String} {ts : α → Int}
    {m : String → Option α} {r existing : α} (h0 : ¬ key r = "")
    (hm : m (key r) = some existing) (hts : ts existing ≤ ts r) :
    lwwInsert key ts m r = fun k => if k = key r then some r else m k := by
  unfold lwwInsert
  rw [if_neg h0, hm]
  dsimp only
  rw [if_pos hts]

theorem lwwInsert_keeps {key : α → String} {ts : α → Int}
    {m : String → Option α} {r existing : α} (h0 : ¬ key r = "")
    (hm : m (key r) = some existing) (hts : ¬ ts existing ≤ ts r) :
    lwwInsert key ts m r = m := by
  unfold lwwInsert
  rw [if_neg h0, hm]
  dsimp only
  rw [if_neg hts]

theorem lwwInsert_eq_some {key : α → String} {ts : α → Int}
    {m : String → Option α} {r : α} {k : String} {x : α}
    (h : lwwInsert key ts m r k = some x) :
    m k = some x ∨ (x = r ∧ key r = k ∧ k ≠ "") := by
  by_cases h0 : key r = ""
  · rw [lwwInsert_key_empty h0] at h
    exact Or.inl h
  · cases hm : m (key r) with
    | none =>
      rw [lwwInsert_none h0 hm] at h
      by_cases hk : k = key r
      · simp only [if_pos hk] at h
        right
        exact ⟨(Option.some.injEq _ _ ▸ h).symm, hk.symm, fun hc => h0 (hk ▸ hc ▸ rfl)⟩
      · simp only [if_neg hk] at h
        exact Or.inl h
    | some existing =>
      by_cases hts : ts existing ≤ ts r
      · rw [lwwInsert_wins h0 hm hts] at h
        by_cases hk : k = key r
        · simp only [if_pos hk] at h
          right
          exact ⟨(Option.some.injEq _ _ ▸ h).symm, hk.symm, fun hc => h0 (hk ▸ hc ▸ rfl)⟩
        · simp only [if_neg hk] at h
          exact Or.inl h
      · rw [lwwInsert_keeps h0 hm hts] at h
        exact Or.inl h

theorem lwwInsert_mono {key : α → String} {ts : α → Int}
    {m : String → Option α} {r : α} {k : String} {e : α}
    (h : m k = some e) :
    ∃ x, lwwInsert key ts m r k = some x ∧ ts e ≤ ts x := by
  by_cases h0 : key r = ""
  · rw [lwwInsert_key_empty h0]
    exact ⟨e, h, le_refl _⟩
  · cases hm : m (key r) with
    | none =>
      rw [lwwInsert_none h0 hm]
      by_cases hk : k = key r
      · rw [hk, hm] at h
        exact absurd h (by simp)
      · exact ⟨e, by simp only [if_neg hk]; exact h, le_refl _⟩
    | some existing =>
      by_cases hts : ts existing ≤ ts r
      · rw [lwwInsert_wins h0 hm hts]
        by_cases hk : k = key r
        · refine ⟨r, by simp only [if_pos hk], ?_⟩
          have he : e = existing := by
            rw [hk, hm] at h
            exact (Option.some.injEq _ _ ▸ h).symm
          exact he ▸ hts
        · exact ⟨e, by simp only [if_neg hk]; exact h, le_refl _⟩
      · rw [lwwInsert_keeps h0 hm hts]
        exact ⟨e, h, le_refl _⟩

theorem lwwInsert_hit {key : α → String} {ts : α → Int}
    (m : String → Option α) {r : α} {k : String}
    (hk : key r = k) (hne : k ≠ "") :
    ∃ x, lwwInsert key ts m r k = some x ∧ ts r ≤ ts x := by
  have h0 : ¬ (key r = "") := fun hc => hne (hk ▸ hc)
  cases hm : m (key r) with
  | none =>
    rw [lwwInsert_none h0 hm]
    exact ⟨r, by simp only [if_pos hk.symm], le_refl _⟩
  | some existing =>
    by_cases hts : ts existing ≤ ts r
    · rw [lwwInsert_wins h0 hm hts]
      exact ⟨r, by simp only [if_pos hk.symm], le_refl _⟩
    · rw [lwwInsert_keeps h0 hm hts]
      refine ⟨existing, by rw [hk] at hm; exact hm, ?_⟩
      omega

theorem lwwFold_eq_some {key : α → String} {ts : α → Int} :
    ∀ {l : List α} {m : String → Option α} {k : String} {x : α},
    (l.foldl (lwwInsert key ts) m) k = some x →
    m k = some x ∨ (x ∈ l ∧ key x = k ∧ k ≠ "") := by
  intro l
  induction l with
  | nil =>
    intro m k x h
    exact Or.inl h
  | cons r rest ih =>
    intro m k x h
    rcases ih (by simpa [List.foldl_cons] using h) with h1 | h1
    · rcases lwwInsert_eq_some h1 with h2 | h2
      · exact Or.inl h2
      · exact Or.inr ⟨h2.1 ▸ List.mem_cons_self r rest, h2.1 ▸ h2.2.1, h2.2.2⟩
    · exact Or.inr ⟨List.mem_cons_of_mem r h1.1, h1.2⟩

theorem lwwFold_mono {key : α → String} {ts : α → Int} :
    ∀ {l : List α} {m : String → Option α} {k : String} {e : α},
    m k = some e →
    ∃ x, (l.foldl (lwwInsert key ts) m) k = some x ∧ ts e ≤ ts x := by
  intro l
  induction l with
  | nil =>
    intro m k e h
    exact ⟨e, h, le_refl _⟩
  | cons r rest ih =>
    intro m k e h
    rcases lwwInsert_mono (r := r) h with ⟨y, hy, hty⟩
    rcases ih hy with ⟨x, hx, htx⟩
    exact ⟨x, by simpa [List.foldl_cons] using hx, le_trans hty htx⟩

theorem lwwFold_hit {key : α → String} {ts : α → Int} :
    ∀ {l : List α} {m : String → Option α} {r : α} {k : String},
    r ∈ l → key r = k → k ≠ "" →
    ∃ x, (l.foldl (lwwInsert key ts) m) k = some x ∧ ts r ≤ ts x := by
  intro l
  induction l with
  | nil =>
    intro m r k hmem
    exact absurd hmem (List.not_mem_nil r)
  | cons s rest ih =>
    intro m r k hmem hk hne
    rcases List.mem_cons.mp hmem with rfl | hmem
    · rcases @lwwInsert_hit _ key ts m _ _ hk hne with ⟨y, hy, hty⟩
      rcases lwwFold_mono (l := rest) hy with ⟨x, hx, htx⟩
      exact ⟨x, by simpa [List.foldl_cons] using hx, le_trans hty htx⟩
    · rcases ih (m := lwwInsert key ts m s) hmem hk hne with ⟨x, hx, htx⟩
      exact ⟨x, by simpa [List.foldl_cons] using hx, htx⟩

/-- Characterization of a populated entry of the view: it is an observed
record for that key carrying the maximum timestamp among the key's
writes. -/
theorem lwwView_spec {key : α → String} {ts : α → Int}
    {l : List α} {k : String} {x : α}
    (h : lwwView key ts l k = some x) :
    x ∈ l ∧ key x = k ∧ k ≠ "" ∧ ∀ s ∈ l, key s = k → ts s ≤ ts x := by
  rcases lwwFold_eq_some h with h1 | h1
  · exact absurd h1 (by simp)
  · refine ⟨h1.1, h1.2.1, h1.2.2, ?_⟩
    intro s hs hsk
    rcases lwwFold_hit (m := fun _ => none) hs hsk h1.2.2 with ⟨y, hy, hty⟩
    have : y = x := by
      have := hy.symm.trans h
      exact (Option.some.injEq _ _ ▸ this)
    exact this ▸ hty

theorem lwwView_isSome {key : α → String} {ts : α → Int}
    {l : List α} {r : α} {k : String}
    (hmem : r ∈ l) (hk : key r = k) (hne : k ≠ "") :
    ∃ x, lwwView key ts l k = some x :=
  (lwwFold_hit (m := fun _ => none) hmem hk hne).imp (fun _ h => h.1)

/-- With per-key unique timestamps the view is independent of observation
order. -/
theorem lwwView_perm {key : α → String} {ts : α → Int}
    {l l' : List α} (hperm : List.Perm l l') (htf : tieFree key ts l) :
    lwwView key ts l' = lwwView key ts l := by
  funext k
  cases hx : lwwView key ts l k with
  | some x =>
    rcases lwwView_spec hx with ⟨hxl, hxk, hkne, hxmax⟩
    rcases lwwView_isSome (hperm.mem_iff.mp hxl) hxk hkne with ⟨y, hy⟩
    rcases lwwView_spec hy with ⟨hyl, hyk, _, hymax⟩
    have hyl' : y ∈ l := hperm.mem_iff.mpr hyl
    have h1 : ts x ≤ ts y := hymax x (hperm.mem_iff.mp hxl) hxk
    have h2 : ts y ≤ ts x := hxmax y hyl' hyk
    have : y = x := htf y hyl' x hxl (hyk.trans hxk.symm) (le_antisymm h2 h1)
    rw [hy, this]
  | none =>
    cases hy : lwwView key ts l' k with
    | none => rfl
    | some y =>
      rcases lwwView_spec hy with ⟨hyl, hyk, hkne, _⟩
      rcases lwwView_isSome (l := l) (hperm.mem_iff.mpr hyl) hyk hkne with ⟨z, hz⟩
      rw [hz] at hx
      exact absurd hx (by simp)

/-- C1 (amended): for each key, the record the `list*` read reports for
that key is one of that key's observed writes and carries the maximum
timestamp among them; and provided no two distinct writes to the same key
carry equal timestamps, the per-key result is identical for every order in
which the writes are observed.  (On an exact timestamp tie the most
recently observed write wins, so observation order can matter; see the
counterexample.) -/
theorem claim_C1_lww_store
    (ps ps' : List PlayerState) (ss ss' : List ScoreState)
    (es es' : List EventLogEntry)
    (hpp : List.Perm ps ps')
    (hpt : tieFree (fun p => p.id) (fun p => p.joinedAt) ps)
    (hsp : List.Perm ss ss')
    (hst : tieFree (fun s => s.playerId) (fun s => s.updatedAt) ss)
    (hep : List.Perm es es')
    (het : tieFree (fun e => e.id) (fun e => e.timestamp) es) :
    (resolveLatestPlayers ps' = resolveLatestPlayers ps ∧
      ∀ k r, resolveLatestPlayers ps k = some r →
        r ∈ ps ∧ r.id = k ∧ ∀ s ∈ ps, s.id = k → s.joinedAt ≤ r.joinedAt) ∧
    (resolveLatestScores ss' = resolveLatestScores ss ∧
      ∀ k r, resolveLatestScores ss k = some r →
        r ∈ ss ∧ r.playerId = k ∧
          ∀ s ∈ ss, s.playerId = k → s.updatedAt ≤ r.updatedAt) ∧
    (resolveLatestEvents es' = resolveLatestEvents es ∧
      ∀ k r, resolveLatestEvents es k = some r →
        r ∈ es ∧ r.id = k ∧ ∀ s ∈ es, s.id = k → s.timestamp ≤ r.timestamp) := by
  refine ⟨⟨lwwView_perm hpp hpt, ?_⟩, ⟨lwwView_perm hsp hst, ?_⟩,
    ⟨lwwView_perm hep het, ?_⟩⟩ <;>
  · intro k r h
    rcases lwwView_spec h with ⟨h1, h2, _, h4⟩
    exact ⟨h1, h2, h4⟩

def playersSample : List PlayerState :=
  [⟨"a", "Ann", 1⟩, ⟨"b", "Bob", 4⟩, ⟨"a", "Anne", 3⟩]

def scoresSample : List ScoreState :=
  [⟨"a", 10, 2⟩, ⟨"a", 30, 6⟩]

def eventsSample : List EventLogEntry :=
  [⟨"e1", "join", "p", 1, none, none⟩, ⟨"e1", "leave", "q", 5, none, none⟩]

theorem claim_C1_witness :
    resolveLatestPlayers [⟨"b", "Bob", 4⟩, ⟨"a", "Anne", 3⟩, ⟨"a", "Ann", 1⟩] =
      resolveLatestPlayers playersSample ∧
    resolveLatestScores [⟨"a", 30, 6⟩, ⟨"a", 10, 2⟩] =
      resolveLatestScores scoresSample ∧
    resolveLatestEvents
        [⟨"e1", "leave", "q", 5, none, none⟩, ⟨"e1", "join", "p", 1, none, none⟩] =
      resolveLatestEvents eventsSample :=
  have h := claim_C1_lww_store playersSample
    [⟨"b", "Bob", 4⟩, ⟨"a", "Anne", 3⟩, ⟨"a", "Ann", 1⟩]
    scoresSample [⟨"a", 30, 6⟩, ⟨"a", 10, 2⟩]
    eventsSample
    [⟨"e1", "leave", "q", 5, none, none⟩, ⟨"e1", "join", "p", 1, none, none⟩]
    (by decide) (by unfold tieFree; decide) (by decide)
    (by unfold tieFree; decide) (by decide) (by unfold tieFree; decide)
  ⟨h.1.1, h.2.1.1, h.2.2.1⟩

/-- C1 counterexample: two writes to the same player id with the same
`joinedAt` but different payloads resolve differently depending on the
order in which they are observed, so the read is not order-independent as
claimed. -/
theorem claim_C1_counterexample :
    resolveLatestPlayers [⟨"a", "first", 5⟩, ⟨"a", "second", 5⟩] "a" ≠
      resolveLatestPlayers [⟨"a", "second", 5⟩, ⟨"a", "first", 5⟩] "a" := by
  decide

/-- C2 (amended): verifying a freshly signed-and-stored event returns
true, and verification returns false whenever the envelope's `id` or
`timestamp` differ from the signed ones (signature and publicKey kept as
originally produced).  Altering only the payload is not detected; see the
counterexample. -/
theorem claim_C2_verify_sign (keys : GunKeyPair) (e : EventInput) (ts : Int)
    (s' : EventLogEntry)
    (hpub : keys.pub ≠ "")
    (hsig : s'.signature = (appendEvent keys e ts).signature)
    (hpk : s'.publicKey = (appendEvent keys e ts).publicKey)
    (halt : s'.id ≠ e.id ∨ s'.timestamp ≠ ts) :
    verifyEvent (appendEvent keys e ts) = true ∧ verifyEvent s' = false := by
  have hs : s'.signature = some ⟨⟨e.id, e.type, e.payload, ts⟩, keys.pub⟩ := by
    simpa [appendEvent, seaSign] using hsig
  have hp : s'.publicKey = some keys.pub := by
    simpa [appendEvent] using hpk
  constructor
  · simp [verifyEvent, appendEvent, seaSign, seaVerify, hpub]
  · rcases halt with h | h
    · simp [verifyEvent, hs, hp, seaVerify, hpub, Ne.symm h]
    · simp [verifyEvent, hs, hp, seaVerify, hpub, Ne.symm h]

theorem claim_C2_witness :
    verifyEvent (appendEvent ⟨"pub-1", "priv-1"⟩ ⟨"evt-1", "join", "pay"⟩ 7) =
      true ∧
    verifyEvent
        { appendEvent ⟨"pub-1", "priv-1"⟩ ⟨"evt-1", "join", "pay"⟩ 7 with
          id := "evt-2" } = false :=
  claim_C2_verify_sign ⟨"pub-1", "priv-1"⟩ ⟨"evt-1", "join", "pay"⟩ 7
    { appendEvent ⟨"pub-1", "priv-1"⟩ ⟨"evt-1", "join", "pay"⟩ 7 with
      id := "evt-2" }
    (by decide) rfl rfl (Or.inl (by decide))

def tamperedEvent : EventLogEntry :=
  { appendEvent ⟨"pub-1", "priv-1"⟩ ⟨"evt-1", "join", "pay-a"⟩ 7 with
    payload := "pay-b" }

/-- C2 counterexample: altering only the payload after signing, while
keeping the produced signature and public key, still verifies: the code
checks only `id` and `timestamp` against the signed record. -/
theorem claim_C2_counterexample :
    tamperedEvent.payload ≠
      (appendEvent ⟨"pub-1", "priv-1"⟩ ⟨"evt-1", "join", "pay-a"⟩ 7).payload ∧
    tamperedEvent.signature =
      (appendEvent ⟨"pub-1", "priv-1"⟩ ⟨"evt-1", "join", "pay-a"⟩ 7).signature ∧
    tamperedEvent.publicKey =
      (appendEvent ⟨"pub-1", "priv-1"⟩ ⟨"evt-1", "join", "pay-a"⟩ 7).publicKey ∧
    verifyEvent tamperedEvent = true := by
  decide

/-! ### Host election (`packages/lib/networking/host-election`)

`peerId` inputs are already strings (`peerIdToString` applied).  A
candidate's `joinedAt` is an optional JavaScript number, modelled with an
explicit non-finite case for the `Number.isFinite` guard. -/

inductive JsNum where
  | fin (val : Int)
  | notFinite
deriving DecidableEq, Repr

def JsNum.isFinite : JsNum → Bool
  | .fin _ => true
  | .notFinite => false

structure HostCandidate where
  peerId : String
  joinedAt : Option JsNum
deriving DecidableEq, Repr

structure HostSelection where
  peerId : String
  joinedAt : Option Int
deriving DecidableEq, Repr

structure HostElectionOptions where
  currentHostId : Option String
deriving DecidableEq, Repr

/-- The `Number.isFinite` guard of `normalizeCandidates`: an absent
timestamp passes through, a finite one is kept, otherwise the code
throws. -/
def checkFinite : Option JsNum → Except String (Option Int)
  | none => .ok none
  | some (.fin v) => .ok (some v)
  | some .notFinite => .error "Join timestamp must be finite"

/-- `byPeerId.get(peerId)` on the insertion-ordered map model. -/
def findSelection (l : List HostSelection) (pid : String) :
    Option HostSelection :=
  l.find? (fun s => decide (s.peerId = pid))

/-- `byPeerId.set(peerId, sel)`: replace the first entry with the same
key in place, or append a new entry. -/
def upsertSelection : List HostSelection → HostSelection → List HostSelection
  | [], s => [s]
  | t :: rest, s =>
    if t.peerId = s.peerId then s :: rest else t :: upsertSelection rest s

/-- `resolveJoinTimestamp`. -/
def resolveJoinTimestamp : Option Int → Option Int → Option Int
  | none, next => next
  | some existing, none => some existing
  | some existing, some next => some (min existing next)

/-- The loop body of `normalizeCandidates`. -/
def normalizeLoop :
    List HostSelection → List HostCandidate →
      Except String (List HostSelection)
  | acc, [] => .ok acc
  | acc, c :: rest =>
    let pid := jsTrim c.peerId
    if pid = "" then .error "Peer id is required"
    else
      match checkFinite c.joinedAt with
      | .error e => .error e
      | .ok j =>
        match findSelection acc pid with
        | none => normalizeLoop (upsertSelection acc ⟨pid, j⟩) rest
        | some existing =>
          normalizeLoop
            (upsertSelection acc
              ⟨pid, resolveJoinTimestamp existing.joinedAt j⟩) rest

/-- `normalizeCandidates`. -/
def normalizeCandidates (candidates : List HostCandidate) :
    Except String (List HostSelection) :=
  normalizeLoop [] candidates

/-- `compareCandidates`. -/
def compareCandidates (a b : HostSelection) : Int :=
  match a.joinedAt, b.joinedAt with
  | some aJoined, some bJoined =>
    if aJoined ≠ bJoined then aJoined - bJoined
    else if a.peerId = b.peerId then 0
    else if strLt a.peerId b.peerId then -1 else 1
  | some _, none => -1
  | none, some _ => 1
  | none, none =>
    if a.peerId = b.peerId then 0
    else if strLt a.peerId b.peerId then -1 else 1

/-- Boolean order induced by the comparator, used for the sort model. -/
def candLE (a b : HostSelection) : Bool :=
  decide (compareCandidates a b ≤ 0)

/-- `electHost`. -/
def electHost (candidates : List HostCandidate)
    (options : HostElectionOptions) :
    Except String (Option HostSelection) :=
  if candidates = [] then .ok none
  else
    match normalizeCandidates candidates with
    | .error e => .error e
    | .ok normalized =>
      if normalized = [] then .ok none
      else
        let currentHostId : Option String :=
          match options.currentHostId with
          | some h => if h = "" then none else some h
          | none => none
        let fromIncumbent : Option HostSelection :=
          match currentHostId with
          | some h => findSelection normalized h
          | none => none
        match fromIncumbent with
        | some existing => .ok (some existing)
        | none => .ok (sortBy candLE normalized).head?

/-! Spec-side order and minimum, written from the specification's words:
`joinedAt` ascending, candidates without `joinedAt` after all candidates
with one, ties broken by peer id lexicographic ascending; duplicate peer
ids keep the minimum `joinedAt` among occurrences that have one. -/

/-- Lexicographic-or-equal order on peer ids. -/
def strOrdLE (p q : String) : Prop :=
  p = q ∨ strLt p q = true

/-- The election priority order described by the specification. -/
def specLE (a b : HostSelection) : Prop :=
  match a.joinedAt, b.joinedAt with
  | some aj, some bj => aj < bj ∨ (aj = bj ∧ strOrdLE a.peerId b.peerId)
  | some _, none => True
  | none, some _ => False
  | none, none => strOrdLE a.peerId b.peerId

/-- Finite part of a candidate's optional timestamp. -/
def toOptInt : Option JsNum → Option Int
  | some (.fin v) => some v
  | _ => none

/-- Optional timestamps of the candidates announcing a given peer id, in
observation order. -/
def optJoins (candidates : List HostCandidate) (pid : String) :
    List (Option Int) :=
  (candidates.filter (fun c => decide (jsTrim c.peerId = pid))).map
    (fun c => toOptInt c.joinedAt)

/-- Whether some candidate announces the given (trimmed) peer id. -/
def pidPresent (candidates : List HostCandidate) (pid : String) : Bool :=
  candidates.any (fun c => decide (jsTrim c.peerId = pid))

/-- Folding `resolveJoinTimestamp` over observed optional timestamps. -/
def foldResolve (a : Option Int) (l : List (Option Int)) : Option Int :=
  l.foldl resolveJoinTimestamp a

/-- Minimum of a list of timestamps, `none` when there are none. -/
def specMinJoined : List Int → Option Int
  | [] => none
  | t :: rest =>
    match specMinJoined rest with
    | none => some t
    | some m => some (min t m)

/-- The defined `joinedAt` values announced for a peer id. -/
def finiteJoins (candidates : List HostCandidate) (pid : String) :
    List Int :=
  (candidates.filter (fun c => decide (jsTrim c.peerId = pid))).filterMap
    (fun c => toOptInt c.joinedAt)

/-- A candidate that passes both validation guards. -/
def goodCandidate (c : HostCandidate) : Prop :=
  jsTrim c.peerId ≠ "" ∧ ∀ j, c.joinedAt = some j → j.isFinite = true

theorem strOrdLE_refl (p : String) : strOrdLE p p := Or.inl rfl

theorem strOrdLE_total (p q : String) : strOrdLE p q ∨ strOrdLE q p := by
  by_cases h : p = q
  · exact Or.inl (Or.inl h)
  · rcases strLt_total h with h1 | h1
    · exact Or.inl (Or.inr h1)
    · exact Or.inr (Or.inr h1)

theorem strOrdLE_trans {p q r : String} (h1 : strOrdLE p q)
    (h2 : strOrdLE q r) : strOrdLE p r := by
  rcases h1 with rfl | h1
  · exact h2
  · rcases h2 with rfl | h2
    · exact Or.inr h1
    · exact Or.inr (strLt_trans h1 h2)

theorem strOrdLE_antisymm {p q : String} (h1 : strOrdLE p q)
    (h2 : strOrdLE q p) : p = q := by
  rcases h1 with rfl | h1
  · rfl
  · rcases h2 with rfl | h2
    · rfl
    · exact absurd h2 (by simp [strLt_asymm h1])

theorem specLE_refl (a : HostSelection) : specLE a a := by
  unfold specLE
  cases a.joinedAt with
  | none => exact strOrdLE_refl _
  | some aj => exact Or.inr ⟨rfl, strOrdLE_refl _⟩

theorem specLE_total (a b : HostSelection) : specLE a b ∨ specLE b a := by
  unfold specLE
  cases ha : a.joinedAt with
  | none =>
    cases hb : b.joinedAt with
    | none => exact strOrdLE_total _ _
    | some bj => exact Or.inr trivial
  | some aj =>
    cases hb : b.joinedAt with
    | none => exact Or.inl trivial
    | some bj =>
      rcases lt_trichotomy aj bj with h | h | h
      · exact Or.inl (Or.inl h)
      · rcases strOrdLE_total a.peerId b.peerId with h1 | h1
        · exact Or.inl (Or.inr ⟨h, h1⟩)
        · exact Or.inr (Or.inr ⟨h.symm, h1⟩)
      · exact Or.inr (Or.inl h)

theorem specLE_trans {a b c : HostSelection} (h1 : specLE a b)
    (h2 : specLE b c) : specLE a c := by
  unfold specLE at *
  cases ha : a.joinedAt with
  | none =>
    cases hb : b.joinedAt with
    | none =>
      cases hc : c.joinedAt with
      | none =>
        rw [ha, hb] at h1; rw [hb, hc] at h2
        exact strOrdLE_trans h1 h2
      | some cj =>
        rw [hb, hc] at h2
        exact h2.elim
    | some bj =>
      rw [ha, hb] at h1
      exact h1.elim
  | some aj =>
    cases hc : c.joinedAt with
    | none => trivial
    | some cj =>
      cases hb : b.joinedAt with
      | none =>
        rw [hb, hc] at h2
        exact h2.elim
      | some bj =>
        rw [ha, hb] at h1; rw [hb, hc] at h2
        rcases h1 with h1 | ⟨h1e, h1s⟩
        · rcases h2 with h2 | ⟨h2e, _⟩
          · exact Or.inl (lt_trans h1 h2)
          · exact Or.inl (h2e ▸ h1)
        · rcases h2 with h2 | ⟨h2e, h2s⟩
          · exact Or.inl (h1e ▸ h2)
          · exact Or.inr ⟨h1e.trans h2e, strOrdLE_trans h1s h2s⟩

theorem specLE_antisymm {a b : HostSelection} (h1 : specLE a b)
    (h2 : specLE b a) : a = b := by
  unfold specLE at h1 h2
  cases a with
  | mk ap aj =>
    cases b with
    | mk bp bj =>
      cases aj with
      | none =>
        cases bj with
        | none =>
          simp only at h1 h2
          rw [strOrdLE_antisymm h1 h2]
        | some v => exact h1.elim
      | some av =>
        cases bj with
        | none => exact h2.elim
        | some bv =>
          simp only at h1 h2
          rcases h1 with h1 | ⟨h1e, h1s⟩
          · rcases h2 with h2 | ⟨h2e, _⟩
            · omega
            · omega
          · rcases h2 with h2 | ⟨h2e, h2s⟩
            · omega
            · rw [h1e, strOrdLE_antisymm h1s h2s]

/-- The comparator agrees with the specification's order. -/
theorem candLE_iff (a b : HostSelection) :
    candLE a b = true ↔ specLE a b := by
  unfold candLE compareCandidates specLE
  cases ha : a.joinedAt with
  | none =>
    cases hb : b.joinedAt with
    | none =>
      by_cases hp : a.peerId = b.peerId
      · simp [hp, strOrdLE, strOrdLE_refl]
      · by_cases hs : strLt a.peerId b.peerId = true
        · simp [hp, hs, strOrdLE]
        · simp [hp, hs, strOrdLE]
    | some bj => simp
  | some aj =>
    cases hb : b.joinedAt with
    | none => simp
    | some bj =>
      by_cases hne : aj ≠ bj
      · simp only [if_pos hne, decide_eq_true_eq]
        constructor
        · intro h
          exact Or.inl (by omega)
        · rintro (h | ⟨h, _⟩)
          · omega
          · exact absurd h hne
      · have he : aj = bj := by omega
        subst he
        simp only [if_neg hne]
        by_cases hp : a.peerId = b.peerId
        · simp [hp, strOrdLE, strOrdLE_refl]
        · by_cases hs : strLt a.peerId b.peerId = true
          · simp [hp, hs, strOrdLE]
          · simp [hp, hs, strOrdLE]

theorem candLE_total (a b : HostSelection) :
    candLE a b = true ∨ candLE b a = true := by
  rcases specLE_total a b with h | h
  · exact Or.inl ((candLE_iff a b).mpr h)
  · exact Or.inr ((candLE_iff b a).mpr h)

theorem candLE_trans (a b c : HostSelection) (h1 : candLE a b = true)
    (h2 : candLE b c = true) : candLE a c = true :=
  (candLE_iff a c).mpr
    (specLE_trans ((candLE_iff a b).mp h1) ((candLE_iff b c).mp h2))

/-- Keys of the insertion-ordered map model. -/
def selKeys (l : List HostSelection) : List String :=
  l.map (fun s => s.peerId)

theorem mem_selKeys_upsert (l : List HostSelection) (s : HostSelection)
    (pid : String) :
    pid ∈ selKeys (upsertSelection l s) ↔
      pid = s.peerId ∨ pid ∈ selKeys l := by
  induction l with
  | nil => simp [upsertSelection, selKeys]
  | cons t rest ih =>
    by_cases h : t.peerId = s.peerId
    · rw [upsertSelection, if_pos h]
      simp only [selKeys, List.map_cons, List.mem_cons] at *
      rw [h]
      tauto
    · rw [upsertSelection, if_neg h]
      simp only [selKeys, List.map_cons, List.mem_cons] at *
      rw [ih]
      tauto

theorem selKeys_nodup_upsert (l : List HostSelection) (s : HostSelection)
    (h : (selKeys l).Nodup) : (selKeys (upsertSelection l s)).Nodup := by
  induction l with
  | nil => simp [upsertSelection, selKeys]
  | cons t rest ih =>
    simp only [selKeys, List.map_cons, List.nodup_cons] at h
    by_cases hp : t.peerId = s.peerId
    · rw [upsertSelection, if_pos hp]
      simp only [selKeys, List.map_cons, List.nodup_cons]
      exact ⟨hp ▸ h.1, h.2⟩
    · rw [upsertSelection, if_neg hp]
      simp only [selKeys, List.map_cons, List.nodup_cons]
      refine ⟨?_, ih h.2⟩
      intro hc
      rcases (mem_selKeys_upsert rest s t.peerId).mp hc with h1 | h1
      · exact hp h1
      · exact h.1 h1

theorem findSelection_eq_some {l : List HostSelection} {pid : String}
    {s : HostSelection} (h : findSelection l pid = some s) :
    s ∈ l ∧ s.peerId = pid := by
  refine ⟨List.mem_of_find?_eq_some h, ?_⟩
  have := List.find?_some h
  simpa using this

theorem findSelection_eq_none {l : List HostSelection} {pid : String} :
    findSelection l pid = none ↔ ∀ s ∈ l, s.peerId ≠ pid := by
  unfold findSelection
  rw [List.find?_eq_none]
  simp

theorem findSelection_of_mem {l : List HostSelection}
    (hnd : (selKeys l).Nodup) {s : HostSelection} (hs : s ∈ l) :
    findSelection l s.peerId = some s := by
  induction l with
  | nil => cases hs
  | cons t rest ih =>
    simp only [selKeys, List.map_cons, List.nodup_cons] at hnd
    rcases List.mem_cons.mp hs with rfl | hs
    · unfold findSelection
      rw [List.find?_cons_of_pos _ (by simp)]
    · have hne : ¬ (t.peerId = s.peerId) := by
        intro hc
        exact hnd.1 (hc ▸ List.mem_map_of_mem (fun x => x.peerId) hs)
      unfold findSelection
      rw [List.find?_cons_of_neg _ (by simp [hne])]
      exact ih hnd.2 hs

theorem findSelection_upsert (l : List HostSelection) (s : HostSelection)
    (pid : String) :
    findSelection (upsertSelection l s) pid =
      if pid = s.peerId then some s else findSelection l pid := by
  induction l with
  | nil =>
    by_cases h : pid = s.peerId
    · rw [if_pos h]
      unfold upsertSelection findSelection
      rw [List.find?_cons_of_pos _ (by simp [h.symm])]
    · rw [if_neg h]
      unfold upsertSelection findSelection
      rw [List.find?_cons_of_neg _ (by simp [Ne.symm h]), List.find?_nil]
  | cons t rest ih =>
    by_cases hts : t.peerId = s.peerId
    · rw [upsertSelection, if_pos hts]
      by_cases hp : pid = s.peerId
      · rw [if_pos hp]
        unfold findSelection
        rw [List.find?_cons_of_pos _ (by simp [hp.symm])]
      · rw [if_neg hp]
        unfold findSelection
        rw [List.find?_cons_of_neg _ (by simp [Ne.symm hp]),
          List.find?_cons_of_neg _ (by simp [hts, Ne.symm hp])]
    · rw [upsertSelection, if_neg hts]
      by_cases hpt : t.peerId = pid
      · have hps : ¬ (pid = s.peerId) := fun hc => hts (hpt.trans hc)
        rw [if_neg hps]
        unfold findSelection
        rw [List.find?_cons_of_pos _ (by simp [hpt]),
          List.find?_cons_of_pos _ (by simp [hpt])]
      · unfold findSelection
        rw [List.find?_cons_of_neg _ (by simp [hpt])]
        conv_rhs => rw [List.find?_cons_of_neg _ (by simp [hpt])]
        exact ih

theorem resolveJoin_none_left (x : Option Int) :
    resolveJoinTimestamp none x = x := rfl

theorem resolveJoin_assoc (a b c : Option Int) :
    resolveJoinTimestamp (resolveJoinTimestamp a b) c =
      resolveJoinTimestamp a (resolveJoinTimestamp b c) := by
  cases a <;> cases b <;> cases c <;> simp [resolveJoinTimestamp, min_assoc]

theorem foldResolve_cons (a x : Option Int) (l : List (Option Int)) :
    foldResolve a (x :: l) = foldResolve (resolveJoinTimestamp a x) l := rfl

theorem foldResolve_eq (l : List (Option Int)) (a : Option Int) :
    foldResolve a l = resolveJoinTimestamp a (foldResolve none l) := by
  induction l generalizing a with
  | nil => cases a <;> rfl
  | cons x rest ih =>
    rw [foldResolve_cons, ih, foldResolve_cons, resolveJoin_none_left, ih x,
      resolveJoin_assoc]

theorem foldResolve_none_specMin (l : List (Option Int)) :
    foldResolve none l = specMinJoined (l.filterMap id) := by
  induction l with
  | nil => rfl
  | cons x rest ih =>
    rw [foldResolve_cons, resolveJoin_none_left, foldResolve_eq, ih]
    cases x with
    | none => simp [resolveJoinTimestamp, List.filterMap_cons]
    | some v =>
      simp only [List.filterMap_cons, id, specMinJoined]
      cases specMinJoined (rest.filterMap id) with
      | none => rfl
      | some m => rfl

theorem optJoins_filterMap (candidates : List HostCandidate) (pid : String) :
    (optJoins candidates pid).filterMap id = finiteJoins candidates pid := by
  unfold optJoins finiteJoins
  rw [List.filterMap_map]
  rfl

/-- The resolve fold computes the minimum of the observed defined
timestamps for a key. -/
theorem foldResolve_specMin (candidates : List HostCandidate)
    (pid : String) :
    foldResolve none (optJoins candidates pid) =
      specMinJoined (finiteJoins candidates pid) := by
  rw [foldResolve_none_specMin, optJoins_filterMap]

theorem specMinJoined_perm {l l' : List Int} (h : List.Perm l l') :
    specMinJoined l = specMinJoined l' := by
  induction h with
  | nil => rfl
  | cons x _ ih => rw [specMinJoined, ih, specMinJoined]
  | swap x y l =>
    show specMinJoined (y :: x :: l) = specMinJoined (x :: y :: l)
    simp only [specMinJoined]
    cases specMinJoined l with
    | none => simp [min_comm]
    | some m =>
      simp only
      congr 1
      omega
  | trans _ _ ih1 ih2 => exact ih1.trans ih2

theorem checkFinite_good {c : HostCandidate} (h : goodCandidate c) :
    checkFinite c.joinedAt = .ok (toOptInt c.joinedAt) := by
  cases hj : c.joinedAt with
  | none => rfl
  | some j =>
    cases j with
    | fin v => rfl
    | notFinite =>
      have := h.2 JsNum.notFinite hj
      simp [JsNum.isFinite] at this

theorem optJoins_cons_pos {c : HostCandidate} {pid : String}
    (h : jsTrim c.peerId = pid) (rest : List HostCandidate) :
    optJoins (c :: rest) pid = toOptInt c.joinedAt :: optJoins rest pid := by
  simp [optJoins, List.filter_cons, h]

theorem optJoins_cons_neg {c : HostCandidate} {pid : String}
    (h : ¬ jsTrim c.peerId = pid) (rest : List HostCandidate) :
    optJoins (c :: rest) pid = optJoins rest pid := by
  simp [optJoins, List.filter_cons, h]

theorem pidPresent_cons_pos {c : HostCandidate} {pid : String}
    (h : jsTrim c.peerId = pid) (rest : List HostCandidate) :
    pidPresent (c :: rest) pid = true := by
  simp [pidPresent, List.any_cons, h]

theorem pidPresent_cons_neg {c : HostCandidate} {pid : String}
    (h : ¬ jsTrim c.peerId = pid) (rest : List HostCandidate) :
    pidPresent (c :: rest) pid = pidPresent rest pid := by
  simp [pidPresent, List.any_cons, h]

/-- Invariant of the `normalizeCandidates` loop: the accumulated map stays
key-nodup and its per-key content is the fold of `resolveJoinTimestamp`
over the observed optional timestamps for that key. -/
theorem normalizeLoop_spec :
    ∀ (cs : List HostCandidate) (acc : List HostSelection),
      (selKeys acc).Nodup →
      (∀ c ∈ cs, goodCandidate c) →
      ∃ ns, normalizeLoop acc cs = .ok ns ∧ (selKeys ns).Nodup ∧
        ∀ pid, findSelection ns pid =
          (match findSelection acc pid with
           | some s => some ⟨pid, foldResolve s.joinedAt (optJoins cs pid)⟩
           | none =>
             if pidPresent cs pid then
               some ⟨pid, foldResolve none (optJoins cs pid)⟩
             else none) := by
  intro cs
  induction cs with
  | nil =>
    intro acc hnd _
    refine ⟨acc, rfl, hnd, ?_⟩
    intro pid
    cases hf : findSelection acc pid with
    | none => simp [pidPresent]
    | some s =>
      rcases findSelection_eq_some hf with ⟨_, hpk⟩
      cases s with
      | mk sp sj =>
        simp only at hpk
        subst hpk
        rfl
  | cons c rest ih =>
    intro acc hnd hgood
    have hgc : goodCandidate c := hgood c (List.mem_cons_self c rest)
    have hpid : ¬ (jsTrim c.peerId = "") := hgc.1
    have hgrest : ∀ c' ∈ rest, goodCandidate c' :=
      fun c' h' => hgood c' (List.mem_cons_of_mem c h')
    cases hf : findSelection acc (jsTrim c.peerId) with
    | none =>
      have hnd' := selKeys_nodup_upsert acc ⟨jsTrim c.peerId, toOptInt c.joinedAt⟩ hnd
      rcases ih _ hnd' hgrest with ⟨ns, hns, hndns, hchar⟩
      refine ⟨ns, ?_, hndns, ?_⟩
      · simp only [normalizeLoop, if_neg hpid, checkFinite_good hgc, hf]
        exact hns
      · intro pid
        rw [hchar pid, findSelection_upsert]
        by_cases hpp : pid = jsTrim c.peerId
        · subst hpp
          rw [if_pos rfl, hf, pidPresent_cons_pos rfl, if_pos rfl,
            optJoins_cons_pos rfl, foldResolve_cons, resolveJoin_none_left]
        · rw [if_neg (by simpa using hpp)]
          have hcp : ¬ (jsTrim c.peerId = pid) := fun hc => hpp hc.symm
          cases hfa : findSelection acc pid with
          | none =>
            rw [pidPresent_cons_neg hcp, optJoins_cons_neg hcp]
          | some s =>
            rw [optJoins_cons_neg hcp]
    | some existing =>
      have hnd' := selKeys_nodup_upsert acc
        ⟨jsTrim c.peerId,
          resolveJoinTimestamp existing.joinedAt (toOptInt c.joinedAt)⟩ hnd
      rcases ih _ hnd' hgrest with ⟨ns, hns, hndns, hchar⟩
      refine ⟨ns, ?_, hndns, ?_⟩
      · simp only [normalizeLoop, if_neg hpid, checkFinite_good hgc, hf]
        exact hns
      · intro pid
        rw [hchar pid, findSelection_upsert]
        by_cases hpp : pid = jsTrim c.peerId
        · subst hpp
          rw [if_pos rfl, hf, optJoins_cons_pos rfl, foldResolve_cons]
          rfl
        · rw [if_neg (by simpa using hpp)]
          have hcp : ¬ (jsTrim c.peerId = pid) := fun hc => hpp hc.symm
          cases hfa : findSelection acc pid with
          | none =>
            rw [pidPresent_cons_neg hcp, optJoins_cons_neg hcp]
          | some s =>
            rw [optJoins_cons_neg hcp]

/-- `normalizeCandidates` on valid input: a key-nodup selection list whose
per-key timestamp is the resolved fold over that key's announcements. -/
theorem normalizeCandidates_spec (candidates : List HostCandidate)
    (hgood : ∀ c ∈ candidates, goodCandidate c) :
    ∃ ns, normalizeCandidates candidates = .ok ns ∧ (selKeys ns).Nodup ∧
      ∀ pid, findSelection ns pid =
        (if pidPresent candidates pid then
          some ⟨pid, foldResolve none (optJoins candidates pid)⟩
        else none) := by
  rcases normalizeLoop_spec candidates [] (by simp [selKeys]) hgood with
    ⟨ns, hns, hnd, hchar⟩
  refine ⟨ns, hns, hnd, ?_⟩
  intro pid
  have := hchar pid
  rwa [show findSelection [] pid = none from rfl] at this

theorem normalizeLoop_ok_good :
    ∀ (cs : List HostCandidate) (acc ns : List HostSelection),
      normalizeLoop acc cs = .ok ns → ∀ c ∈ cs, goodCandidate c := by
  intro cs
  induction cs with
  | nil =>
    intro acc ns _ c hc
    cases hc
  | cons c rest ih =>
    intro acc ns h c' hc'
    by_cases hpid : jsTrim c.peerId = ""
    · simp only [normalizeLoop, if_pos hpid] at h
      cases h
    · simp only [normalizeLoop, if_neg hpid] at h
      cases hcf : checkFinite c.joinedAt with
      | error e => rw [hcf] at h; cases h
      | ok j =>
        rw [hcf] at h
        have hgc : goodCandidate c := by
          refine ⟨hpid, ?_⟩
          intro jj hjj
          cases jj with
          | fin v => rfl
          | notFinite =>
            rw [hjj] at hcf
            cases hcf
        rcases List.mem_cons.mp hc' with rfl | hmem
        · exact hgc
        · cases hfa : findSelection acc (jsTrim c.peerId) with
          | none =>
            rw [hfa] at h
            exact ih _ _ h c' hmem
          | some existing =>
            rw [hfa] at h
            exact ih _ _ h c' hmem

theorem normalizeLoop_error_of_bad :
    ∀ (cs : List HostCandidate) (acc : List HostSelection),
      (∃ c ∈ cs, ¬ goodCandidate c) →
      ∃ e, normalizeLoop acc cs = .error e := by
  intro cs
  induction cs with
  | nil =>
    intro acc h
    rcases h with ⟨c, hc, _⟩
    cases hc
  | cons c rest ih =>
    intro acc hex
    by_cases hgc : goodCandidate c
    · have hbad : ∃ c' ∈ rest, ¬ goodCandidate c' := by
        rcases hex with ⟨c', hc', hb⟩
        rcases List.mem_cons.mp hc' with rfl | hmem
        · exact absurd hgc hb
        · exact ⟨c', hmem, hb⟩
      have hpid : ¬ (jsTrim c.peerId = "") := hgc.1
      cases hf : findSelection acc (jsTrim c.peerId) with
      | none =>
        rcases ih _ hbad with ⟨e, he⟩
        exact ⟨e, by simp only [normalizeLoop, if_neg hpid,
          checkFinite_good hgc, hf]; exact he⟩
      | some existing =>
        rcases ih _ hbad with ⟨e, he⟩
        exact ⟨e, by simp only [normalizeLoop, if_neg hpid,
          checkFinite_good hgc, hf]; exact he⟩
    · by_cases hpid : jsTrim c.peerId = ""
      · exact ⟨"Peer id is required", by simp only [normalizeLoop, if_pos hpid]⟩
      · have hj : c.joinedAt = some JsNum.notFinite := by
          unfold goodCandidate at hgc
          push_neg at hgc
          rcases hgc hpid with ⟨j, hj, hfin⟩
          cases j with
          | fin v => simp [JsNum.isFinite] at hfin
          | notFinite => exact hj
        refine ⟨"Join timestamp must be finite", ?_⟩
        simp only [normalizeLoop, if_neg hpid, hj]
        rfl

/-- A selection is in the normalized list exactly when its peer id was
announced, and then its timestamp is the resolved fold for that id. -/
theorem ns_mem_char {candidates : List HostCandidate}
    {ns : List HostSelection} (hnd : (selKeys ns).Nodup)
    (hchar : ∀ pid, findSelection ns pid =
      (if pidPresent candidates pid then
        some ⟨pid, foldResolve none (optJoins candidates pid)⟩
      else none))
    (s : HostSelection) :
    s ∈ ns ↔ (pidPresent candidates s.peerId = true ∧
      s.joinedAt = foldResolve none (optJoins candidates s.peerId)) := by
  constructor
  · intro hs
    have hf := findSelection_of_mem hnd hs
    rw [hchar s.peerId] at hf
    by_cases hp : pidPresent candidates s.peerId = true
    · rw [if_pos hp] at hf
      refine ⟨hp, ?_⟩
      cases s with
      | mk sp sj =>
        have := Option.some.injEq _ _ ▸ hf
        simpa using (congrArg HostSelection.joinedAt this).symm
    · rw [if_neg hp] at hf
      cases hf
  · rintro ⟨hp, hj⟩
    have hf := hchar s.peerId
    rw [if_pos hp] at hf
    have hseq : (⟨s.peerId, foldResolve none (optJoins candidates s.peerId)⟩ :
        HostSelection) = s := by
      cases s with
      | mk sp sj => simpa using hj.symm
    rw [hseq] at hf
    exact (findSelection_eq_some hf).1

theorem pidPresent_perm {candidates candidates' : List HostCandidate}
    (hperm : List.Perm candidates candidates') (pid : String) :
    pidPresent candidates' pid = pidPresent candidates pid := by
  unfold pidPresent
  rw [Bool.eq_iff_iff]
  simp only [List.any_eq_true]
  constructor
  · rintro ⟨c, hc, hp⟩
    exact ⟨c, hperm.mem_iff.mpr hc, hp⟩
  · rintro ⟨c, hc, hp⟩
    exact ⟨c, hperm.mem_iff.mp hc, hp⟩

theorem finiteJoins_perm {candidates candidates' : List HostCandidate}
    (hperm : List.Perm candidates candidates') (pid : String) :
    List.Perm (finiteJoins candidates pid) (finiteJoins candidates' pid) := by
  unfold finiteJoins
  exact (hperm.filter _).filterMap _

/-- C3: on throw-free input, `electHost` deduplicates by trimmed peer id
keeping the minimum announced `joinedAt` (candidates without one
contribute no timestamp), returns the incumbent's entry when
`currentHostId` is supplied and present, otherwise returns the minimum
under the order (joinedAt ascending, absent-joinedAt last, peer-id
lexicographic tie-break), and returns null on an empty candidate list. -/
theorem claim_C3_electHost (candidates : List HostCandidate)
    (opts : HostElectionOptions)
    (hvalid : ∀ c ∈ candidates, goodCandidate c) :
    (candidates = [] → electHost candidates opts = .ok none) ∧
    (candidates ≠ [] → ∃ ns, normalizeCandidates candidates = .ok ns ∧
      (selKeys ns).Nodup ∧
      (∀ s ∈ ns, (∃ c ∈ candidates, jsTrim c.peerId = s.peerId) ∧
        s.joinedAt = specMinJoined (finiteJoins candidates s.peerId)) ∧
      (∀ c ∈ candidates, ∃ s ∈ ns, s.peerId = jsTrim c.peerId) ∧
      (∀ h sel, opts.currentHostId = some h → sel ∈ ns → sel.peerId = h →
        electHost candidates opts = .ok (some sel)) ∧
      ((∀ s ∈ ns, opts.currentHostId ≠ some s.peerId) →
        ∃ m, electHost candidates opts = .ok (some m) ∧ m ∈ ns ∧
          ∀ s ∈ ns, specLE m s)) := by
  constructor
  · intro h
    subst h
    rfl
  · intro hne
    rcases normalizeCandidates_spec candidates hvalid with ⟨ns, hnorm, hnd, hchar⟩
    have hmemchar := ns_mem_char hnd hchar
    have hforward : ∀ c ∈ candidates, ∃ s ∈ ns, s.peerId = jsTrim c.peerId := by
      intro c hc
      have hp : pidPresent candidates (jsTrim c.peerId) = true := by
        simp only [pidPresent, List.any_eq_true]
        exact ⟨c, hc, by simp⟩
      have hf := hchar (jsTrim c.peerId)
      rw [if_pos hp] at hf
      rcases findSelection_eq_some hf with ⟨hmem, hpk⟩
      exact ⟨_, hmem, hpk⟩
    have hnsne : ns ≠ [] := by
      rcases candidates with _ | ⟨c0, cs0⟩
      · exact absurd rfl hne
      · rcases hforward c0 (List.mem_cons_self _ _) with ⟨s, hs, _⟩
        intro hnil
        rw [hnil] at hs
        cases hs
    have hpid_ne : ∀ s ∈ ns, s.peerId ≠ "" := by
      intro s hs
      rcases (hmemchar s).mp hs with ⟨hp, _⟩
      simp only [pidPresent, List.any_eq_true, decide_eq_true_eq] at hp
      rcases hp with ⟨c, hc, hcp⟩
      exact hcp ▸ (hvalid c hc).1
    refine ⟨ns, hnorm, hnd, ?_, hforward, ?_, ?_⟩
    · intro s hs
      rcases (hmemchar s).mp hs with ⟨hp, hj⟩
      constructor
      · simp only [pidPresent, List.any_eq_true, decide_eq_true_eq] at hp
        exact hp
      · rw [hj, foldResolve_specMin]
    · intro h sel hch hsel hselp
      have hh : ¬ (h = "") := hselp ▸ hpid_ne sel hsel
      have hfind : findSelection ns h = some sel :=
        hselp ▸ findSelection_of_mem hnd hsel
      simp only [electHost, if_neg hne, hnorm, if_neg hnsne, hch, if_neg hh,
        hfind]
    · intro hNoInc
      have helect : electHost candidates opts = .ok (sortBy candLE ns).head? := by
        cases hch : opts.currentHostId with
        | none =>
          simp only [electHost, if_neg hne, hnorm, if_neg hnsne, hch]
        | some h =>
          by_cases hh : h = ""
          · simp only [electHost, if_neg hne, hnorm, if_neg hnsne, hch,
              if_pos hh]
          · have hfindnone : findSelection ns h = none := by
              cases hfind : findSelection ns h with
              | none => rfl
              | some s =>
                rcases findSelection_eq_some hfind with ⟨hmem, hpk⟩
                exact absurd (by rw [hch, hpk]) (hNoInc s hmem)
            simp only [electHost, if_neg hne, hnorm, if_neg hnsne, hch,
              if_neg hh, hfindnone]
      cases hsort : sortBy candLE ns with
      | nil =>
        have : ns = [] := ((hsort ▸ sortBy_perm candLE ns).symm).eq_nil
        exact absurd this hnsne
      | cons m tail =>
        have hperm := hsort ▸ sortBy_perm candLE ns
        have hpw := hsort ▸ sortBy_pairwise candLE candLE_total candLE_trans ns
        rcases hpw with _ | ⟨hm, _⟩
        refine ⟨m, by rw [helect, hsort]; rfl,
          hperm.mem_iff.mp (List.mem_cons_self m tail), ?_⟩
        intro s hs
        rcases List.mem_cons.mp (hperm.mem_iff.mpr hs) with rfl | hs'
        · exact specLE_refl s
        · exact (candLE_iff m s).mp (hm s hs')

/-- Order invariance of `electHost`: whenever the original candidate list
produces a selection (no throw), every permutation of it produces the
identical selection. -/
theorem electHost_perm_eq (candidates candidates' : List HostCandidate)
    (opts : HostElectionOptions)
    (hperm : List.Perm candidates candidates')
    (hgood : ∀ c ∈ candidates, goodCandidate c) :
    electHost candidates' opts = electHost candidates opts := by
  by_cases hnil : candidates = []
  · subst hnil
    rw [hperm.symm.eq_nil]
  · have hnil' : candidates' ≠ [] := by
      intro hc
      exact hnil ((hc ▸ hperm).eq_nil)
    have hgood' : ∀ c ∈ candidates', goodCandidate c :=
      fun c hc => hgood c (hperm.mem_iff.mpr hc)
    rcases normalizeCandidates_spec candidates hgood with ⟨ns, hnorm, hnd, hchar⟩
    rcases normalizeCandidates_spec candidates' hgood' with
      ⟨ns', hnorm', hnd', hchar'⟩
    have hfind_eq : ∀ pid, findSelection ns' pid = findSelection ns pid := by
      intro pid
      rw [hchar pid, hchar' pid, pidPresent_perm hperm pid]
      by_cases hp : pidPresent candidates pid = true
      · rw [if_pos hp, if_pos hp]
        rw [foldResolve_specMin, foldResolve_specMin,
          specMinJoined_perm (finiteJoins_perm hperm pid)]
      · rw [if_neg hp, if_neg hp]
    have hmem_eq : ∀ s : HostSelection, s ∈ ns ↔ s ∈ ns' := by
      intro s
      constructor
      · intro hs
        have hf := findSelection_of_mem hnd hs
        rw [← hfind_eq] at hf
        exact (findSelection_eq_some hf).1
      · intro hs
        have hf := findSelection_of_mem hnd' hs
        rw [hfind_eq] at hf
        exact (findSelection_eq_some hf).1
    have hnsperm : List.Perm ns ns' :=
      (List.perm_ext_iff_of_nodup (hnd.of_map _) (hnd'.of_map _)).mpr hmem_eq
    have hsort_eq : sortBy candLE ns' = sortBy candLE ns := by
      have hp1 : List.Perm (sortBy candLE ns') (sortBy candLE ns) :=
        ((sortBy_perm candLE ns').trans hnsperm.symm).trans
          (sortBy_perm candLE ns).symm
      haveI : IsAntisymm HostSelection (fun a b => candLE a b = true) :=
        ⟨fun a b h1 h2 =>
          specLE_antisymm ((candLE_iff a b).mp h1) ((candLE_iff b a).mp h2)⟩
      have hs1 : List.Sorted (fun a b => candLE a b = true) (sortBy candLE ns') :=
        sortBy_pairwise candLE candLE_total candLE_trans ns'
      have hs2 : List.Sorted (fun a b => candLE a b = true) (sortBy candLE ns) :=
        sortBy_pairwise candLE candLE_total candLE_trans ns
      exact List.eq_of_perm_of_sorted hp1 hs1 hs2
    by_cases hnsnil : ns = []
    · have hnsnil' : ns' = [] := (hnsnil ▸ hnsperm.symm).eq_nil
      simp only [electHost, if_neg hnil, if_neg hnil', hnorm, hnorm',
        if_pos hnsnil, if_pos hnsnil']
    · have hnsnil' : ns' ≠ [] := by
        intro hc
        exact hnsnil ((hc ▸ hnsperm).eq_nil)
      cases hch : opts.currentHostId with
      | none =>
        simp only [electHost, if_neg hnil, if_neg hnil', hnorm, hnorm',
          if_neg hnsnil, if_neg hnsnil', hch, hsort_eq]
      | some h =>
        by_cases hh : h = ""
        · simp only [electHost, if_neg hnil, if_neg hnil', hnorm, hnorm',
            if_neg hnsnil, if_neg hnsnil', hch, if_pos hh, hsort_eq]
        · simp only [electHost, if_neg hnil, if_neg hnil', hnorm, hnorm',
            if_neg hnsnil, if_neg hnsnil', hch, if_neg hh, hfind_eq h,
            hsort_eq]

/-- C4: `electHost` is invariant to the order of its candidate list:
whenever it returns a selection on one ordering, it returns the same
selection on every permutation. -/
theorem claim_C4_electHost_perm (candidates candidates' : List HostCandidate)
    (opts : HostElectionOptions) (r : Option HostSelection)
    (hperm : List.Perm candidates candidates')
    (hok : electHost candidates opts = .ok r) :
    electHost candidates' opts = .ok r := by
  by_cases hnil : candidates = []
  · subst hnil
    rw [hperm.symm.eq_nil]
    exact hok
  · have hgood : ∀ c ∈ candidates, goodCandidate c := by
      cases hnorm : normalizeCandidates candidates with
      | ok ns =>
        have hloop : normalizeLoop [] candidates = .ok ns := hnorm
        exact normalizeLoop_ok_good candidates [] ns hloop
      | error e =>
        exfalso
        unfold electHost at hok
        rw [if_neg hnil, hnorm] at hok
        simp at hok
    rw [electHost_perm_eq candidates candidates' opts hperm hgood]
    exact hok

/-- C10: a non-empty candidate list containing a candidate whose peer id
trims to empty, or whose `joinedAt` is present but not a finite number,
makes `electHost` throw. -/
theorem claim_C10_electHost_throws (candidates : List HostCandidate)
    (opts : HostElectionOptions)
    (hne : candidates ≠ [])
    (hbad : ∃ c ∈ candidates, jsTrim c.peerId = "" ∨
      ∃ j, c.joinedAt = some j ∧ j.isFinite = false) :
    ∃ e, electHost candidates opts = .error e := by
  have hb : ∃ c ∈ candidates, ¬ goodCandidate c := by
    rcases hbad with ⟨c, hc, hb⟩
    refine ⟨c, hc, ?_⟩
    rcases hb with hb | ⟨j, hj, hfin⟩
    · exact fun hg => hg.1 hb
    · intro hg
      have := hg.2 j hj
      rw [this] at hfin
      cases hfin
  rcases normalizeLoop_error_of_bad candidates [] hb with ⟨e, he⟩
  refine ⟨e, ?_⟩
  have hnc : normalizeCandidates candidates = .error e := he
  simp only [electHost, if_neg hne, hnc]

def electCands : List HostCandidate :=
  [⟨" peer-b ", some (JsNum.fin 200)⟩, ⟨"peer-a", some (JsNum.fin 100)⟩,
   ⟨"peer-b", some (JsNum.fin 150)⟩, ⟨"peer-c", none⟩]

theorem electCands_good : ∀ c ∈ electCands, goodCandidate c := by
  intro c hc
  fin_cases hc <;>
    exact ⟨by decide, by rintro j hj; cases hj <;> rfl⟩

theorem claim_C3_witness :
    electHost electCands ⟨some "peer-b"⟩ =
      .ok (some ⟨"peer-b", some 150⟩) := by
  have h := (claim_C3_electHost electCands ⟨some "peer-b"⟩ electCands_good).2
    (by decide)
  rcases h with ⟨ns, hnorm, _, _, _, hinc, _⟩
  have h2 : normalizeCandidates electCands =
      .ok [⟨"peer-b", some 150⟩, ⟨"peer-a", some 100⟩, ⟨"peer-c", none⟩] := rfl
  rw [h2] at hnorm
  injection hnorm with h3
  subst h3
  exact hinc "peer-b" ⟨"peer-b", some 150⟩ rfl (List.mem_cons_self _ _) rfl

theorem claim_C4_witness :
    electHost [⟨"peer-b", some (JsNum.fin 2)⟩, ⟨"peer-a", some (JsNum.fin 1)⟩]
      ⟨none⟩ = .ok (some ⟨"peer-a", some 1⟩) :=
  claim_C4_electHost_perm
    [⟨"peer-a", some (JsNum.fin 1)⟩, ⟨"peer-b", some (JsNum.fin 2)⟩]
    [⟨"peer-b", some (JsNum.fin 2)⟩, ⟨"peer-a", some (JsNum.fin 1)⟩]
    ⟨none⟩ (some ⟨"peer-a", some 1⟩) (by decide) rfl

theorem claim_C10_witness :
    (∃ e, electHost [⟨"  ", some (JsNum.fin 5)⟩] ⟨none⟩ = .error e) ∧
    (∃ e, electHost [⟨"peer-a", some JsNum.notFinite⟩] ⟨none⟩ = .error e) :=
  ⟨claim_C10_electHost_throws _ _ (by decide)
      ⟨_, List.mem_cons_self _ _, Or.inl (by decide)⟩,
   claim_C10_electHost_throws _ _ (by decide)
      ⟨_, List.mem_cons_self _ _, Or.inr ⟨JsNum.notFinite, rfl, rfl⟩⟩⟩

/-! ### Trivia game engine (`packages/lib/game/logic`)

The closure returned by `createTriviaGame` holds a mutable
`TriviaGameState` plus the `answersByPlayer` map and the captured
configuration.  Operations are modelled as state-passing functions taking
the configuration, the state, and the clock value `now()` observed during
the call. -/

inductive GameStatus where
  | Lobby
  | InProgress
  | Completed
deriving DecidableEq, Repr

inductive RoundStatus where
  | Idle
  | Active
  | Complete
deriving DecidableEq, Repr

structure TriviaQuestion where
  id : String
  prompt : String
  choices : List String
  answerIndex : Int
deriving DecidableEq, Repr

structure TriviaPlayer where
  id : String
  name : String
  joinedAt : Int
  connected : Bool
  leftAt : Option Int
deriving DecidableEq, Repr

structure TriviaScore where
  playerId : String
  score : Int
  updatedAt : Int
deriving DecidableEq, Repr

structure PlayerAnswer where
  playerId : String
  choiceIndex : Int
  submittedAt : Int
deriving DecidableEq, Repr

structure ScoreAward where
  playerId : String
  points : Int
  totalScore : Int
deriving DecidableEq, Repr

structure RoundResult where
  questionId : String
  correctChoiceIndex : Int
  awards : List ScoreAward
deriving DecidableEq, Repr

/-- The engine state: the `TriviaGameState` fields plus the
closure-captured `answersByPlayer` map (insertion-ordered; player ids are
unique by construction since insertion is guarded by a `has` check). -/
structure TriviaGameState where
  roomCode : String
  status : GameStatus
  roundStatus : RoundStatus
  round : Nat
  roundEndsAt : Option Int
  currentQuestion : Option TriviaQuestion
  selectedQuestions : List TriviaQuestion
  players : List TriviaPlayer
  scores : List TriviaScore
  lastRoundResult : Option RoundResult
  startedAt : Option Int
  endedAt : Option Int
  answersByPlayer : List PlayerAnswer
deriving DecidableEq, Repr

/-- Configuration captured by the `createTriviaGame` closure
(`roomPassword` is stored already trimmed, as in the source). -/
structure GameConfig where
  roomPassword : Option String
  roundDurationMs : Int
  pointsPerCorrect : Int
  questionSet : List TriviaQuestion
  questionCount : Int
deriving DecidableEq, Repr

structure CreateTriviaGameOptions where
  roomCode : String
  roomPassword : Option String
  questions : Option (List TriviaQuestion)
  questionCount : Option Int
  roundDurationMs : Option Int
  pointsPerCorrect : Option Int
deriving DecidableEq, Repr

structure JoinPlayer where
  id : String
  name : String
deriving DecidableEq, Repr

/-- A JavaScript number submitted as a choice index: either an integer or
a value `Number.isInteger` rejects (fractional, NaN or infinite). -/
inductive JsNumber where
  | int (n : Int)
  | notInt
deriving DecidableEq, Repr

/-- The built-in question catalog. -/
def TriviaQuestionSet : List TriviaQuestion :=
  [⟨"q-1", "Which planet is known as the Red Planet?",
    ["Mercury", "Venus", "Earth", "Mars"], 3⟩,
   ⟨"q-2", "What is the capital of Australia?",
    ["Sydney", "Canberra", "Melbourne", "Perth"], 1⟩,
   ⟨"q-3", "Which element has the chemical symbol O?",
    ["Gold", "Oxygen", "Silver", "Iron"], 1⟩,
   ⟨"q-4", "How many continents are there on Earth?",
    ["Five", "Six", "Seven", "Eight"], 2⟩,
   ⟨"q-5", "In which year did humans first land on the Moon?",
    ["1965", "1969", "1972", "1976"], 1⟩,
   ⟨"q-6", "Which ocean is the largest by surface area?",
    ["Atlantic", "Pacific", "Indian", "Arctic"], 1⟩]

/-- `Math.floor(r * n)` where the injected random value `r ∈ [0, 1)` is
the rational `num/den`. -/
def jsFloorMul (r : Nat × Nat) (n : Nat) : Nat :=
  r.1 * n / r.2

/-- One Fisher–Yates swap `shuffled[i] ↔ shuffled[j]`. -/
def listSwap (l : List TriviaQuestion) (i j : Nat) : List TriviaQuestion :=
  match l[i]?, l[j]? with
  | some a, some b => (l.set i b).set j a
  | _, _ => l

theorem listSwap_length (l : List TriviaQuestion) (i j : Nat) :
    (listSwap l i j).length = l.length := by
  unfold listSwap
  cases l[i]? <;> cases l[j]? <;> simp

/-- The downward Fisher–Yates loop of `selectTriviaQuestions`; `index`
counts down to 1 and `call` numbers the `random()` invocations. -/
def fyLoop (random : Nat → Nat × Nat) :
    List TriviaQuestion → Nat → Nat → List TriviaQuestion
  | l, _, 0 => l
  | l, call, i + 1 =>
    let j := jsFloorMul (random call) (i + 2)
    fyLoop random (listSwap l (i + 1) j) (call + 1) i

theorem fyLoop_length (random : Nat → Nat × Nat) :
    ∀ (i : Nat) (l : List TriviaQuestion) (call : Nat),
      (fyLoop random l call i).length = l.length := by
  intro i
  induction i with
  | zero => intro l call; rfl
  | succ i ih =>
    intro l call
    rw [fyLoop]
    rw [ih, listSwap_length]

/-- `selectTriviaQuestions`. -/
def selectTriviaQuestions (questions : List TriviaQuestion) (count : Int)
    (random : Nat → Nat × Nat) : Except String (List TriviaQuestion) :=
  if questions = [] then .error "Question set is required"
  else if count ≤ 0 then .error "Question count must be positive"
  else
    let normalizedCount := min count (questions.length : Int)
    let shuffled := fyLoop random questions 0 (questions.length - 1)
    .ok (shuffled.take normalizedCount.toNat)

/-- `createTriviaGame`: validates the options and returns the captured
configuration together with the initial state. -/
def createTriviaGame (options : CreateTriviaGameOptions) :
    Except String (GameConfig × TriviaGameState) :=
  let roomCode := jsTrim options.roomCode
  if roomCode = "" then .error "Room code is required"
  else
    let roundDurationMs := options.roundDurationMs.getD 15000
    let pointsPerCorrect := options.pointsPerCorrect.getD 100
    let roomPassword := options.roomPassword.map jsTrim
    let questionSet := options.questions.getD TriviaQuestionSet
    let questionCount := options.questionCount.getD (questionSet.length : Int)
    if questionSet = [] then .error "Question set is required"
    else if questionCount ≤ 0 then .error "Question count must be positive"
    else
      .ok (⟨roomPassword, roundDurationMs, pointsPerCorrect, questionSet,
            questionCount⟩,
        { roomCode := roomCode, status := GameStatus.Lobby,
          roundStatus := RoundStatus.Idle, round := 0, roundEndsAt := none,
          currentQuestion := none, selectedQuestions := [], players := [],
          scores := [], lastRoundResult := none, startedAt := none,
          endedAt := none, answersByPlayer := [] })

/-- `canJoin`: true when no password is configured (a blank configured
password is falsy) or the trimmed supplied password matches. -/
def canJoin (cfg : GameConfig) (password : Option String) : Bool :=
  match cfg.roomPassword with
  | none => true
  | some roomPassword =>
    if roomPassword = "" then true
    else decide (password.map jsTrim = some roomPassword)

/-- `ensureJoinAllowed`. -/
def ensureJoinAllowed (cfg : GameConfig) (st : TriviaGameState)
    (player : JoinPlayer) (password : Option String) : Except String Unit :=
  if jsTrim player.id = "" then .error "Player id is required"
  else if jsTrim player.name = "" then .error "Player name is required"
  else if st.status = GameStatus.Completed then .error "Game has ended"
  else if ¬ (canJoin cfg password = true) then .error "Invalid room password"
  else .ok ()

/-- Replace (in place) the first player record with the given id. -/
def replaceFirstPlayer :
    List TriviaPlayer → String → TriviaPlayer → List TriviaPlayer
  | [], _, _ => []
  | p :: rest, playerId, updated =>
    if p.id = playerId then updated :: rest
    else p :: replaceFirstPlayer rest playerId updated

/-- `ensureScoreRecord`: find the player's score record or append a fresh
zero record. -/
def ensureScoreRecord (scores : List TriviaScore) (playerId : String)
    (timestamp : Int) : List TriviaScore :=
  match scores.find? (fun r => decide (r.playerId = playerId)) with
  | some _ => scores
  | none => scores ++ [⟨playerId, 0, timestamp⟩]

/-- The score held for a player (0 when no record exists). -/
def scoreOf (scores : List TriviaScore) (playerId : String) : Int :=
  match scores.find? (fun r => decide (r.playerId = playerId)) with
  | some r => r.score
  | none => 0

/-- `joinPlayer`: validate, then update an existing player record in
place or append a fresh one (creating its score record lazily). -/
def joinPlayer (cfg : GameConfig) (st : TriviaGameState) (nowv : Int)
    (player : JoinPlayer) (password : Option String) :
    Except String (TriviaGameState × TriviaPlayer) :=
  match ensureJoinAllowed cfg st player password with
  | .error e => .error e
  | .ok _ =>
    match st.players.find? (fun p => decide (p.id = player.id)) with
    | some existing =>
      let updated : TriviaPlayer :=
        { existing with name := player.name, connected := true, leftAt := none }
      .ok ({ st with players := replaceFirstPlayer st.players player.id updated },
        updated)
    | none =>
      let record : TriviaPlayer := ⟨player.id, player.name, nowv, true, none⟩
      .ok ({ st with
              players := st.players ++ [record],
              scores := ensureScoreRecord st.scores player.id nowv }, record)

/-- `startGame`. -/
def startGame (cfg : GameConfig) (st : TriviaGameState) (nowv : Int)
    (random : Nat → Nat × Nat) : Except String TriviaGameState :=
  if st.status ≠ GameStatus.Lobby then .error "Game already started"
  else if st.players = [] then .error "At least one player is required"
  else
    match selectTriviaQuestions cfg.questionSet cfg.questionCount random with
    | .error e => .error e
    | .ok selected =>
      .ok { st with
              status := GameStatus.InProgress, startedAt := some nowv,
              round := 0, roundStatus := RoundStatus.Idle, roundEndsAt := none,
              currentQuestion := none, lastRoundResult := none,
              selectedQuestions := selected, answersByPlayer := [] }

/-- `startRound`. -/
def startRound (cfg : GameConfig) (st : TriviaGameState) (nowv : Int) :
    Except String TriviaGameState :=
  if st.status ≠ GameStatus.InProgress then .error "Game is not active"
  else if st.roundStatus = RoundStatus.Active then .error "Round already active"
  else
    if h : st.selectedQuestions.length ≤ st.round then
      .error "No questions remaining"
    else
      let question := st.selectedQuestions.get ⟨st.round, by omega⟩
      .ok { st with
              round := st.round + 1, roundStatus := RoundStatus.Active,
              currentQuestion := some question,
              roundEndsAt := some (nowv + cfg.roundDurationMs),
              lastRoundResult := none, answersByPlayer := [] }

/-- `submitAnswer`: boolean-reporting, never throws. -/
def submitAnswer (st : TriviaGameState) (nowv : Int) (playerId : String)
    (choiceIndex : JsNumber) : TriviaGameState × Bool :=
  if st.roundStatus ≠ RoundStatus.Active then (st, false)
  else
    match st.currentQuestion with
    | none => (st, false)
    | some question =>
      if (match st.roundEndsAt with
          | some deadline => decide (nowv > deadline)
          | none => false) then (st, false)
      else
        match st.players.find?
            (fun p => decide (p.id = playerId) && p.connected) with
        | none => (st, false)
        | some _ =>
          if st.answersByPlayer.any (fun a => decide (a.playerId = playerId))
          then (st, false)
          else
            match choiceIndex with
            | .notInt => (st, false)
            | .int n =>
              if n < 0 ∨ (question.choices.length : Int) ≤ n then (st, false)
              else
                ({ st with answersByPlayer :=
                    st.answersByPlayer ++ [⟨playerId, n, nowv⟩] }, true)

/-- `awardPoints`: mutate the player's (first) score record, creating it
at zero when missing, and report the award with the new total. -/
def bumpScore : List TriviaScore → String → Int → Int → List TriviaScore
  | [], playerId, points, timestamp => [⟨playerId, 0 + points, timestamp⟩]
  | r :: rest, playerId, points, timestamp =>
    if r.playerId = playerId then
      { r with score := r.score + points, updatedAt := timestamp } :: rest
    else r :: bumpScore rest playerId points timestamp

def awardPoints (scores : List TriviaScore) (playerId : String)
    (points timestamp : Int) : List TriviaScore × ScoreAward :=
  (bumpScore scores playerId points timestamp,
   ⟨playerId, points, scoreOf scores playerId + points⟩)

/-- The `endRound` award loop over the recorded answers. -/
def scoreAnswers (points nowv correct : Int)
    (init : List TriviaScore × List ScoreAward)
    (answers : List PlayerAnswer) : List TriviaScore × List ScoreAward :=
  answers.foldl
    (fun acc a =>
      if a.choiceIndex ≠ correct then acc
      else
        let p := awardPoints acc.1 a.playerId points nowv
        (p.1, acc.2 ++ [p.2]))
    init

/-- `endRound`. -/
def endRound (cfg : GameConfig) (st : TriviaGameState) (nowv : Int) :
    Except String (TriviaGameState × RoundResult) :=
  if st.roundStatus ≠ RoundStatus.Active then .error "No active round"
  else
    match st.currentQuestion with
    | none => .error "No question is active"
    | some question =>
      let correct := question.answerIndex
      let folded := scoreAnswers cfg.pointsPerCorrect nowv correct
        (st.scores, []) st.answersByPlayer
      let result : RoundResult := ⟨question.id, correct, folded.2⟩
      let st1 : TriviaGameState := { st with
        roundStatus := RoundStatus.Complete,
        roundEndsAt := none,
        lastRoundResult := some result,
        answersByPlayer := [],
        scores := folded.1 }
      if st1.selectedQuestions.length ≤ st1.round then
        .ok ({ st1 with status := GameStatus.Completed, endedAt := some nowv },
          result)
      else .ok (st1, result)

/-- `endGame`. -/
def endGame (cfg : GameConfig) (st : TriviaGameState) (nowv : Int) :
    Except String TriviaGameState :=
  if st.status = GameStatus.Completed then .ok st
  else if st.status = GameStatus.Lobby then .error "Game has not started"
  else
    let afterRound : Except String TriviaGameState :=
      if st.roundStatus = RoundStatus.Active then
        (endRound cfg st nowv).map (fun p => p.1)
      else .ok st
    match afterRound with
    | .error e => .error e
    | .ok st1 =>
      .ok { st1 with
              status := GameStatus.Completed, endedAt := some nowv,
              roundStatus := RoundStatus.Complete, roundEndsAt := none }

theorem scoreOf_nil (pid : String) : scoreOf [] pid = 0 := rfl

theorem scoreOf_cons_pos {x : TriviaScore} {pid : String}
    (h : x.playerId = pid) (rest : List TriviaScore) :
    scoreOf (x :: rest) pid = x.score := by
  unfold scoreOf
  rw [List.find?_cons_of_pos _ (by simp [h])]

theorem scoreOf_cons_neg {x : TriviaScore} {pid : String}
    (h : ¬ x.playerId = pid) (rest : List TriviaScore) :
    scoreOf (x :: rest) pid = scoreOf rest pid := by
  unfold scoreOf
  rw [List.find?_cons_of_neg _ (by simp [h])]

theorem bumpScore_scoreOf (scores : List TriviaScore) (playerId : String)
    (points timestamp : Int) (pid : String) :
    scoreOf (bumpScore scores playerId points timestamp) pid =
      if pid = playerId then scoreOf scores pid + points
      else scoreOf scores pid := by
  induction scores with
  | nil =>
    by_cases h : pid = playerId
    · subst h
      rw [if_pos rfl, bumpScore, scoreOf_cons_pos rfl, scoreOf_nil]
    · rw [if_neg h, bumpScore,
        scoreOf_cons_neg
          (show ¬ ((⟨playerId, 0 + points, timestamp⟩ : TriviaScore).playerId = pid)
            from fun hc => h hc.symm)]
  | cons r rest ih =>
    by_cases hr : r.playerId = playerId
    · rw [bumpScore, if_pos hr]
      by_cases hp : pid = playerId
      · subst hp
        rw [if_pos rfl,
          scoreOf_cons_pos
            (show ({ r with score := r.score + points, updatedAt := timestamp } :
              TriviaScore).playerId = pid from hr),
          scoreOf_cons_pos hr]
      · have hrp : ¬ (r.playerId = pid) := fun hc => hp (hc.symm.trans hr)
        rw [if_neg hp,
          scoreOf_cons_neg
            (show ¬ (({ r with score := r.score + points, updatedAt := timestamp } :
              TriviaScore).playerId = pid) from hrp),
          scoreOf_cons_neg hrp]
    · rw [bumpScore, if_neg hr]
      by_cases hp2 : r.playerId = pid
      · have hppid : ¬ (pid = playerId) := fun hc => hr (hp2.trans hc)
        rw [if_neg hppid, scoreOf_cons_pos hp2, scoreOf_cons_pos hp2]
      · rw [scoreOf_cons_neg hp2, scoreOf_cons_neg hp2, ih]

theorem scoreAnswers_cons (points nowv correct : Int)
    (init : List TriviaScore × List ScoreAward) (a : PlayerAnswer)
    (rest : List PlayerAnswer) :
    scoreAnswers points nowv correct init (a :: rest) =
      scoreAnswers points nowv correct
        (if a.choiceIndex ≠ correct then init
         else
           let p := awardPoints init.1 a.playerId points nowv
           (p.1, init.2 ++ [p.2])) rest := rfl

theorem scoreAnswers_scoreOf (points nowv correct : Int) :
    ∀ (answers : List PlayerAnswer) (scores : List TriviaScore)
      (awards : List ScoreAward),
      (answers.map (fun a => a.playerId)).Nodup →
      ∀ pid,
        scoreOf (scoreAnswers points nowv correct (scores, awards) answers).1
            pid =
          if ∃ a ∈ answers, a.playerId = pid ∧ a.choiceIndex = correct then
            scoreOf scores pid + points
          else scoreOf scores pid := by
  intro answers
  induction answers with
  | nil =>
    intro scores awards _ pid
    rw [if_neg (by simp)]
    rfl
  | cons a rest ih =>
    intro scores awards hnd pid
    simp only [List.map_cons, List.nodup_cons] at hnd
    rw [scoreAnswers_cons]
    by_cases hc : a.choiceIndex ≠ correct
    · rw [if_pos hc, ih scores awards hnd.2 pid]
      by_cases hex : ∃ a' ∈ rest, a'.playerId = pid ∧ a'.choiceIndex = correct
      · rw [if_pos hex]
        rcases hex with ⟨a', ha', h1, h2⟩
        rw [if_pos ⟨a', List.mem_cons_of_mem a ha', h1, h2⟩]
      · rw [if_neg hex, if_neg ?_]
        rintro ⟨a', ha', h1, h2⟩
        rcases List.mem_cons.mp ha' with rfl | hmem
        · exact hc h2
        · exact hex ⟨a', hmem, h1, h2⟩
    · have hceq : a.choiceIndex = correct := by
        by_contra hcn
        exact hc hcn
      rw [if_neg hc]
      show scoreOf (scoreAnswers points nowv correct
        (bumpScore scores a.playerId points nowv,
          awards ++ [⟨a.playerId, points, scoreOf scores a.playerId + points⟩])
        rest).1 pid = _
      rw [ih _ _ hnd.2 pid]
      by_cases hp : a.playerId = pid
      · have hnotin :
            ¬ ∃ a' ∈ rest, a'.playerId = pid ∧ a'.choiceIndex = correct := by
          rintro ⟨a', ha', h1, _⟩
          have hm := List.mem_map_of_mem (fun x => x.playerId) ha'
          simp only at hm
          rw [show a'.playerId = a.playerId from h1.trans hp.symm] at hm
          exact hnd.1 hm
        rw [if_neg hnotin, bumpScore_scoreOf, if_pos hp.symm,
          if_pos ⟨a, List.mem_cons_self a rest, hp, hceq⟩]
      · have hpa : ¬ (pid = a.playerId) := fun hc2 => hp hc2.symm
        rw [bumpScore_scoreOf, if_neg hpa]
        by_cases hex : ∃ a' ∈ rest, a'.playerId = pid ∧ a'.choiceIndex = correct
        · rw [if_pos hex]
          rcases hex with ⟨a', ha', h1, h2⟩
          rw [if_pos ⟨a', List.mem_cons_of_mem a ha', h1, h2⟩]
        · rw [if_neg hex, if_neg ?_]
          rintro ⟨a', ha', h1, h2⟩
          rcases List.mem_cons.mp ha' with rfl | hmem
          · exact hp h1
          · exact hex ⟨a', hmem, h1, h2⟩

/-- A player that already has a recorded answer is rejected, whatever
else holds, and the state is untouched. -/
theorem submitAnswer_of_answered (st : TriviaGameState) (nowv : Int)
    (pid : String) (ci : JsNumber)
    (hex : ∃ a ∈ st.answersByPlayer, a.playerId = pid) :
    submitAnswer st nowv pid ci = (st, false) := by
  unfold submitAnswer
  by_cases ha : st.roundStatus ≠ RoundStatus.Active
  · rw [if_pos ha]
  · rw [if_neg ha]
    cases hq : st.currentQuestion with
    | none => rfl
    | some q =>
      dsimp only
      by_cases hdl : (match st.roundEndsAt with
          | some deadline => decide (nowv > deadline)
          | none => false) = true
      · rw [if_pos hdl]
      · rw [if_neg hdl]
        cases hfind : st.players.find?
            (fun p => decide (p.id = pid) && p.connected) with
        | none => rfl
        | some p =>
          dsimp only
          have hany : st.answersByPlayer.any
              (fun a => decide (a.playerId = pid)) = true := by
            rw [List.any_eq_true]
            rcases hex with ⟨a, ha', he⟩
            exact ⟨a, ha', by simpa using he⟩
          rw [if_pos hany]

/-- C5: `submitAnswer` returns false, leaving the state unchanged and
never throwing, under each of the rejection conditions; otherwise it
records the answer and returns true, and a second submission by the same
player in the same round returns false. -/
theorem claim_C5_submitAnswer (st : TriviaGameState) (nowv : Int)
    (pid : String) (ci : JsNumber) :
    (st.roundStatus ≠ RoundStatus.Active →
      submitAnswer st nowv pid ci = (st, false)) ∧
    (st.currentQuestion = none →
      submitAnswer st nowv pid ci = (st, false)) ∧
    (∀ d, st.roundEndsAt = some d → nowv > d →
      submitAnswer st nowv pid ci = (st, false)) ∧
    ((∀ p ∈ st.players, p.id = pid → p.connected = false) →
      submitAnswer st nowv pid ci = (st, false)) ∧
    ((∃ a ∈ st.answersByPlayer, a.playerId = pid) →
      submitAnswer st nowv pid ci = (st, false)) ∧
    (∀ q, st.currentQuestion = some q →
      (∀ n, ci = JsNumber.int n → n < 0 ∨ (q.choices.length : Int) ≤ n) →
      submitAnswer st nowv pid ci = (st, false)) ∧
    (∀ q n, st.roundStatus = RoundStatus.Active →
      st.currentQuestion = some q →
      (∀ d, st.roundEndsAt = some d → nowv ≤ d) →
      (∃ p ∈ st.players, p.id = pid ∧ p.connected = true) →
      (∀ a ∈ st.answersByPlayer, a.playerId ≠ pid) →
      ci = JsNumber.int n → 0 ≤ n → n < (q.choices.length : Int) →
      submitAnswer st nowv pid ci =
        ({ st with answersByPlayer :=
            st.answersByPlayer ++ [⟨pid, n, nowv⟩] }, true) ∧
      ∀ now2 ci2,
        (submitAnswer
          { st with answersByPlayer := st.answersByPlayer ++ [⟨pid, n, nowv⟩] }
          now2 pid ci2).2 = false) := by
  refine ⟨?_, ?_, ?_, ?_, ?_, ?_, ?_⟩
  · intro h
    unfold submitAnswer
    rw [if_pos h]
  · intro hq
    unfold submitAnswer
    by_cases ha : st.roundStatus ≠ RoundStatus.Active
    · rw [if_pos ha]
    · rw [if_neg ha, hq]
  · intro d hd hlt
    unfold submitAnswer
    by_cases ha : st.roundStatus ≠ RoundStatus.Active
    · rw [if_pos ha]
    · rw [if_neg ha]
      cases hq : st.currentQuestion with
      | none => rfl
      | some q =>
        dsimp only
        have hbool : (match st.roundEndsAt with
            | some deadline => decide (nowv > deadline)
            | none => false) = true := by
          rw [hd]
          simpa using hlt
        rw [if_pos hbool]
  · intro hplayers
    unfold submitAnswer
    by_cases ha : st.roundStatus ≠ RoundStatus.Active
    · rw [if_pos ha]
    · rw [if_neg ha]
      cases hq : st.currentQuestion with
      | none => rfl
      | some q =>
        dsimp only
        by_cases hdl : (match st.roundEndsAt with
            | some deadline => decide (nowv > deadline)
            | none => false) = true
        · rw [if_pos hdl]
        · rw [if_neg hdl]
          have hfind : st.players.find?
              (fun p => decide (p.id = pid) && p.connected) = none := by
            rw [List.find?_eq_none]
            intro p hp
            simp only [Bool.and_eq_true, decide_eq_true_eq, not_and]
            intro hid
            rw [hplayers p hp hid]
            simp
          rw [hfind]
  · exact submitAnswer_of_answered st nowv pid ci
  · intro q hq hrange
    unfold submitAnswer
    by_cases ha : st.roundStatus ≠ RoundStatus.Active
    · rw [if_pos ha]
    · rw [if_neg ha, hq]
      dsimp only
      by_cases hdl : (match st.roundEndsAt with
          | some deadline => decide (nowv > deadline)
          | none => false) = true
      · rw [if_pos hdl]
      · rw [if_neg hdl]
        cases hfind : st.players.find?
            (fun p => decide (p.id = pid) && p.connected) with
        | none => rfl
        | some p =>
          dsimp only
          by_cases hans : st.answersByPlayer.any
              (fun a => decide (a.playerId = pid)) = true
          · rw [if_pos hans]
          · rw [if_neg hans]
            cases hci : ci with
            | notInt => rfl
            | int n =>
              dsimp only
              rw [if_pos (hrange n hci)]
  · intro q n hact hq hdeadline hplayer hnoans hci h0 hlen
    have hresult : submitAnswer st nowv pid ci =
        ({ st with answersByPlayer :=
            st.answersByPlayer ++ [⟨pid, n, nowv⟩] }, true) := by
      unfold submitAnswer
      rw [if_neg (show ¬ (st.roundStatus ≠ RoundStatus.Active) from
        fun hc => hc hact), hq]
      dsimp only
      have hdl : (match st.roundEndsAt with
          | some deadline => decide (nowv > deadline)
          | none => false) = false := by
        cases hre : st.roundEndsAt with
        | none => rfl
        | some dd =>
          have := hdeadline dd hre
          simpa using this
      rw [if_neg (by rw [hdl]; simp)]
      have hfind : (st.players.find?
          (fun p => decide (p.id = pid) && p.connected)).isSome = true := by
        rw [List.find?_isSome]
        rcases hplayer with ⟨p, hp, h1, h2⟩
        exact ⟨p, hp, by simp [h1, h2]⟩
      cases hf : st.players.find? (fun p => decide (p.id = pid) && p.connected) with
      | none => rw [hf] at hfind; cases hfind
      | some p =>
        dsimp only
        have hany : st.answersByPlayer.any
            (fun a => decide (a.playerId = pid)) = false := by
          rw [List.any_eq_false]
          intro a ha
          simpa using hnoans a ha
        rw [if_neg (by rw [hany]; simp), hci]
        dsimp only
        rw [if_neg (show ¬ (n < 0 ∨ (q.choices.length : Int) ≤ n) by omega)]
    refine ⟨hresult, ?_⟩
    intro now2 ci2
    rw [submitAnswer_of_answered _ now2 pid ci2
      ⟨⟨pid, n, nowv⟩, by simp, rfl⟩]

/-- C6: `endRound` requires an active round; it awards the configured
point value exactly once to each player whose recorded answer matches the
question's `answerIndex`, leaves every other score unchanged, transitions
the round to `Complete`, and completes the game (stamping `endedAt`) iff
the ended round was the last selected question. -/
theorem claim_C6_endRound (cfg : GameConfig) (st : TriviaGameState)
    (nowv : Int)
    (hnd : (st.answersByPlayer.map (fun a => a.playerId)).Nodup) :
    (st.roundStatus ≠ RoundStatus.Active →
      endRound cfg st nowv = .error "No active round") ∧
    (∀ q, st.roundStatus = RoundStatus.Active → st.currentQuestion = some q →
      ∃ st' res, endRound cfg st nowv = .ok (st', res) ∧
        st'.roundStatus = RoundStatus.Complete ∧
        res.correctChoiceIndex = q.answerIndex ∧
        (∀ pid, scoreOf st'.scores pid =
          if ∃ a ∈ st.answersByPlayer,
              a.playerId = pid ∧ a.choiceIndex = q.answerIndex then
            scoreOf st.scores pid + cfg.pointsPerCorrect
          else scoreOf st.scores pid) ∧
        (st.selectedQuestions.length ≤ st.round →
          st'.status = GameStatus.Completed ∧ st'.endedAt = some nowv) ∧
        (st.round < st.selectedQuestions.length →
          st'.status = st.status ∧ st'.endedAt = st.endedAt)) := by
  constructor
  · intro h
    unfold endRound
    rw [if_pos h]
  · intro q hact hq
    unfold endRound
    rw [if_neg (show ¬ (st.roundStatus ≠ RoundStatus.Active) from
      fun hc => hc hact), hq]
    dsimp only
    by_cases hlast : st.selectedQuestions.length ≤ st.round
    · rw [if_pos hlast]
      refine ⟨_, _, rfl, rfl, rfl, ?_, fun _ => ⟨rfl, rfl⟩,
        fun hlt => absurd hlast (by omega)⟩
      intro pid
      exact scoreAnswers_scoreOf cfg.pointsPerCorrect nowv q.answerIndex
        st.answersByPlayer st.scores [] hnd pid
    · rw [if_neg hlast]
      refine ⟨_, _, rfl, rfl, rfl, ?_, fun hle => absurd hle hlast,
        fun _ => ⟨rfl, rfl⟩⟩
      intro pid
      exact scoreAnswers_scoreOf cfg.pointsPerCorrect nowv q.answerIndex
        st.answersByPlayer st.scores [] hnd pid

def sampleQ : TriviaQuestion := ⟨"q-7", "What is 2 + 2?", ["3", "4"], 1⟩

def sampleCfg : GameConfig := ⟨none, 15000, 100, [sampleQ], 1⟩

def c5State : TriviaGameState :=
  { roomCode := "room", status := GameStatus.InProgress,
    roundStatus := RoundStatus.Active, round := 1,
    roundEndsAt := some 100, currentQuestion := some sampleQ,
    selectedQuestions := [sampleQ],
    players := [⟨"p1", "Ann", 0, true, none⟩],
    scores := [⟨"p1", 0, 0⟩],
    lastRoundResult := none, startedAt := some 0, endedAt := none,
    answersByPlayer := [] }

theorem claim_C5_witness :
    submitAnswer c5State 10 "p1" (JsNumber.int 1) =
      ({ c5State with answersByPlayer :=
          c5State.answersByPlayer ++ [⟨"p1", 1, 10⟩] }, true) ∧
    (submitAnswer
        { c5State with answersByPlayer :=
            c5State.answersByPlayer ++ [⟨"p1", 1, 10⟩] }
        11 "p1" (JsNumber.int 0)).2 = false := by
  have h := (claim_C5_submitAnswer c5State 10 "p1" (JsNumber.int 1)).2.2.2.2.2.2
    sampleQ 1 rfl rfl
    (by intro d hd; simp only [c5State] at hd; injection hd with h2; omega)
    (by decide) (by decide) rfl (by decide) (by decide)
  exact ⟨h.1, h.2 11 (JsNumber.int 0)⟩

def c6State : TriviaGameState :=
  { roomCode := "room", status := GameStatus.InProgress,
    roundStatus := RoundStatus.Active, round := 1,
    roundEndsAt := some 100, currentQuestion := some sampleQ,
    selectedQuestions := [sampleQ],
    players := [⟨"p1", "Ann", 0, true, none⟩, ⟨"p2", "Bob", 1, true, none⟩],
    scores := [⟨"p1", 0, 0⟩, ⟨"p2", 0, 1⟩],
    lastRoundResult := none, startedAt := some 0, endedAt := none,
    answersByPlayer := [⟨"p1", 1, 10⟩, ⟨"p2", 0, 11⟩] }

theorem claim_C6_witness :
    ∃ st' res, endRound sampleCfg c6State 20 = .ok (st', res) ∧
      st'.roundStatus = RoundStatus.Complete ∧
      scoreOf st'.scores "p1" = 100 ∧ scoreOf st'.scores "p2" = 0 ∧
      st'.status = GameStatus.Completed := by
  have h := (claim_C6_endRound sampleCfg c6State 20 (by decide)).2 sampleQ rfl rfl
  rcases h with ⟨st', res, hok, hrs, _, hscore, hlast, _⟩
  refine ⟨st', res, hok, hrs, ?_, ?_, (hlast (by decide)).1⟩
  · rw [hscore "p1", if_pos (by decide)]
    decide
  · rw [hscore "p2", if_neg (by decide)]
    decide

theorem selectTriviaQuestions_ok (questions : List TriviaQuestion)
    (count : Int) (random : Nat → Nat × Nat)
    (hq : questions ≠ []) (hc : 0 < count) :
    ∃ selected, selectTriviaQuestions questions count random = .ok selected ∧
      selected.length = min count.toNat questions.length := by
  unfold selectTriviaQuestions
  rw [if_neg hq, if_neg (by omega)]
  dsimp only
  refine ⟨_, rfl, ?_⟩
  rw [List.length_take, fyLoop_length]
  omega

/-- C7: the lifecycle `Lobby → InProgress → Completed` with nested round
transitions: `startGame` requires a lobby with at least one player and
leaves `round = 0`; `startRound` requires `InProgress`, a non-active
round, and a remaining question, and then increments the round and
activates it; after `Completed`, `startRound` always fails. -/
theorem claim_C7_lifecycle (cfg : GameConfig) (st : TriviaGameState)
    (nowv : Int) (random : Nat → Nat × Nat) :
    (st.status ≠ GameStatus.Lobby →
      startGame cfg st nowv random = .error "Game already started") ∧
    (st.players = [] → st.status = GameStatus.Lobby →
      startGame cfg st nowv random = .error "At least one player is required") ∧
    (st.status = GameStatus.Lobby → st.players ≠ [] →
      cfg.questionSet ≠ [] → 0 < cfg.questionCount →
      ∃ st', startGame cfg st nowv random = .ok st' ∧
        st'.status = GameStatus.InProgress ∧ st'.round = 0 ∧
        st'.roundStatus = RoundStatus.Idle ∧
        st'.selectedQuestions.length =
          min cfg.questionCount.toNat cfg.questionSet.length) ∧
    (st.status ≠ GameStatus.InProgress →
      startRound cfg st nowv = .error "Game is not active") ∧
    (st.status = GameStatus.InProgress → st.roundStatus = RoundStatus.Active →
      startRound cfg st nowv = .error "Round already active") ∧
    (st.status = GameStatus.InProgress → st.roundStatus ≠ RoundStatus.Active →
      st.selectedQuestions.length ≤ st.round →
      startRound cfg st nowv = .error "No questions remaining") ∧
    (st.status = GameStatus.InProgress → st.roundStatus ≠ RoundStatus.Active →
      st.round < st.selectedQuestions.length →
      ∃ st', startRound cfg st nowv = .ok st' ∧
        st'.round = st.round + 1 ∧ st'.roundStatus = RoundStatus.Active ∧
        st'.currentQuestion.isSome = true) ∧
    (st.status = GameStatus.Completed →
      startRound cfg st nowv = .error "Game is not active") := by
  refine ⟨?_, ?_, ?_, ?_, ?_, ?_, ?_, ?_⟩
  · intro h
    unfold startGame
    rw [if_pos h]
  · intro hp hl
    unfold startGame
    rw [if_neg (show ¬ (st.status ≠ GameStatus.Lobby) from fun hc => hc hl),
      if_pos hp]
  · intro hl hp hqs hqc
    rcases selectTriviaQuestions_ok cfg.questionSet cfg.questionCount random
      hqs hqc with ⟨selected, hsel, hlen⟩
    unfold startGame
    rw [if_neg (show ¬ (st.status ≠ GameStatus.Lobby) from fun hc => hc hl),
      if_neg hp, hsel]
    exact ⟨_, rfl, rfl, rfl, rfl, hlen⟩
  · intro h
    unfold startRound
    rw [if_pos h]
  · intro hs hr
    unfold startRound
    rw [if_neg (show ¬ (st.status ≠ GameStatus.InProgress) from
      fun hc => hc hs), if_pos hr]
  · intro hs hr hle
    unfold startRound
    rw [if_neg (show ¬ (st.status ≠ GameStatus.InProgress) from
      fun hc => hc hs), if_neg hr, dif_pos hle]
  · intro hs hr hlt
    unfold startRound
    rw [if_neg (show ¬ (st.status ≠ GameStatus.InProgress) from
      fun hc => hc hs), if_neg hr, dif_neg (by omega)]
    exact ⟨_, rfl, rfl, rfl, rfl⟩
  · intro h
    unfold startRound
    rw [if_pos (show st.status ≠ GameStatus.InProgress by rw [h]; simp)]

theorem replaceFirstPlayer_map_id (l : List TriviaPlayer) (pid : String)
    (upd : TriviaPlayer) (hupd : upd.id = pid) :
    (replaceFirstPlayer l pid upd).map (fun p => p.id) =
      l.map (fun p => p.id) := by
  induction l with
  | nil => rfl
  | cons x rest ih =>
    by_cases hx : x.id = pid
    · rw [replaceFirstPlayer, if_pos hx]
      simp only [List.map_cons]
      rw [hupd, hx]
    · rw [replaceFirstPlayer, if_neg hx]
      simp only [List.map_cons]
      rw [ih]

theorem mem_replaceFirstPlayer {l : List TriviaPlayer} {pid : String}
    {upd : TriviaPlayer} (hupd : upd.id = pid)
    (hnd : (l.map (fun p => p.id)).Nodup) {p2 : TriviaPlayer}
    (hmem : p2 ∈ replaceFirstPlayer l pid upd) (hp2 : p2.id = pid) :
    p2 = upd ∨ (∀ x ∈ l, x.id ≠ pid) := by
  induction l with
  | nil => cases hmem
  | cons x rest ih =>
    simp only [List.map_cons, List.nodup_cons] at hnd
    by_cases hx : x.id = pid
    · rw [replaceFirstPlayer, if_pos hx] at hmem
      rcases List.mem_cons.mp hmem with rfl | hmem'
      · exact Or.inl rfl
      · exfalso
        apply hnd.1
        rw [hx, ← hp2]
        exact List.mem_map_of_mem (fun p => p.id) hmem'
    · rw [replaceFirstPlayer, if_neg hx] at hmem
      rcases List.mem_cons.mp hmem with rfl | hmem'
      · exact absurd hp2 hx
      · rcases ih hnd.2 hmem' with h | h
        · exact Or.inl h
        · refine Or.inr ?_
          intro y hy
          rcases List.mem_cons.mp hy with rfl | hy'
          · exact hx
          · exact h y hy'

/-- C8: `joinPlayer` fails when `canJoin` rejects the password, when the
game is completed, or when the id or name is blank; otherwise it succeeds
with a connected player record, updating a re-joining player in place
without duplicating, and appending a fresh record for a new player. -/
theorem claim_C8_joinPlayer (cfg : GameConfig) (st : TriviaGameState)
    (nowv : Int) (player : JoinPlayer) (pw : Option String)
    (hnd : (st.players.map (fun p => p.id)).Nodup) :
    (canJoin cfg pw = false →
      ∃ e, joinPlayer cfg st nowv player pw = .error e) ∧
    (st.status = GameStatus.Completed →
      ∃ e, joinPlayer cfg st nowv player pw = .error e) ∧
    (jsTrim player.id = "" ∨ jsTrim player.name = "" →
      ∃ e, joinPlayer cfg st nowv player pw = .error e) ∧
    (canJoin cfg pw = true → st.status ≠ GameStatus.Completed →
      jsTrim player.id ≠ "" → jsTrim player.name ≠ "" →
      ∃ st' rec, joinPlayer cfg st nowv player pw = .ok (st', rec) ∧
        rec.connected = true ∧
        ((∃ ex ∈ st.players, ex.id = player.id) →
          st'.players.map (fun p => p.id) = st.players.map (fun p => p.id) ∧
          ∀ p2 ∈ st'.players, p2.id = player.id →
            p2.name = player.name ∧ p2.connected = true ∧ p2.leftAt = none) ∧
        ((∀ ex ∈ st.players, ex.id ≠ player.id) →
          st'.players =
            st.players ++ [⟨player.id, player.name, nowv, true, none⟩])) := by
  refine ⟨?_, ?_, ?_, ?_⟩
  · intro hcj
    unfold joinPlayer ensureJoinAllowed
    by_cases h1 : jsTrim player.id = ""
    · rw [if_pos h1]
      exact ⟨_, rfl⟩
    · rw [if_neg h1]
      by_cases h2 : jsTrim player.name = ""
      · rw [if_pos h2]
        exact ⟨_, rfl⟩
      · rw [if_neg h2]
        by_cases h3 : st.status = GameStatus.Completed
        · rw [if_pos h3]
          exact ⟨_, rfl⟩
        · rw [if_neg h3, if_pos (show ¬ (canJoin cfg pw = true) by
            rw [hcj]; simp)]
          exact ⟨_, rfl⟩
  · intro hcompleted
    unfold joinPlayer ensureJoinAllowed
    by_cases h1 : jsTrim player.id = ""
    · rw [if_pos h1]
      exact ⟨_, rfl⟩
    · rw [if_neg h1]
      by_cases h2 : jsTrim player.name = ""
      · rw [if_pos h2]
        exact ⟨_, rfl⟩
      · rw [if_neg h2, if_pos hcompleted]
        exact ⟨_, rfl⟩
  · intro hblank
    unfold joinPlayer ensureJoinAllowed
    by_cases h1 : jsTrim player.id = ""
    · rw [if_pos h1]
      exact ⟨_, rfl⟩
    · rcases hblank with hb | hb
      · exact absurd hb h1
      · rw [if_neg h1, if_pos hb]
        exact ⟨_, rfl⟩
  · intro hcj hcompleted h1 h2
    unfold joinPlayer ensureJoinAllowed
    rw [if_neg h1, if_neg h2, if_neg hcompleted,
      if_neg (show ¬ ¬ (canJoin cfg pw = true) from fun hc => hc hcj)]
    dsimp only
    cases hfind : st.players.find? (fun p => decide (p.id = player.id)) with
    | some existing =>
      dsimp only
      have hexid : existing.id = player.id := by
        simpa using List.find?_some hfind
      have hmemex := List.mem_of_find?_eq_some hfind
      refine ⟨_, _, rfl, rfl, ?_, ?_⟩
      · intro _
        constructor
        · exact replaceFirstPlayer_map_id st.players player.id _ hexid
        · intro p2 hp2mem hp2id
          rcases mem_replaceFirstPlayer
              (show (⟨existing.id, player.name, existing.joinedAt, true,
                none⟩ : TriviaPlayer).id = player.id from hexid)
              hnd (by exact hp2mem) hp2id with rfl | hno
          · exact ⟨rfl, rfl, rfl⟩
          · exact absurd hexid (hno existing hmemex)
      · intro hnone
        exact absurd hexid (hnone existing hmemex)
    | none =>
      dsimp only
      refine ⟨_, _, rfl, rfl, ?_, fun _ => rfl⟩
      intro hex
      exfalso
      rcases hex with ⟨ex, hexmem, hexid⟩
      have := List.find?_eq_none.mp hfind ex hexmem
      simp [hexid] at this

/-- The happy path of `endRound` on an active round with a question. -/
theorem endRound_active_ok (cfg : GameConfig) (st : TriviaGameState)
    (nowv : Int) (q : TriviaQuestion)
    (hact : st.roundStatus = RoundStatus.Active)
    (hq : st.currentQuestion = some q) :
    ∃ st' res, endRound cfg st nowv = .ok (st', res) ∧
      st'.roundStatus = RoundStatus.Complete ∧
      st'.lastRoundResult = some res := by
  unfold endRound
  rw [if_neg (show ¬ (st.roundStatus ≠ RoundStatus.Active) from
    fun hc => hc hact), hq]
  dsimp only
  by_cases hlast : st.selectedQuestions.length ≤ st.round
  · rw [if_pos hlast]
    exact ⟨_, _, rfl, rfl, rfl⟩
  · rw [if_neg hlast]
    exact ⟨_, _, rfl, rfl, rfl⟩

/-- C9 (amended): `endGame` force-completes a game that has started:
from `InProgress` it first ends any active round, then marks the game
`Completed` and stamps `endedAt`; on an already `Completed` game it
returns the state unchanged without error; on a `Lobby` game it fails
instead of completing. -/
theorem claim_C9_endGame (cfg : GameConfig) (st : TriviaGameState)
    (nowv : Int) :
    (st.status = GameStatus.Completed → endGame cfg st nowv = .ok st) ∧
    (st.status = GameStatus.Lobby →
      endGame cfg st nowv = .error "Game has not started") ∧
    (st.status = GameStatus.InProgress →
      (st.roundStatus = RoundStatus.Active → st.currentQuestion.isSome = true) →
      ∃ st', endGame cfg st nowv = .ok st' ∧
        st'.status = GameStatus.Completed ∧ st'.endedAt = some nowv ∧
        st'.roundStatus = RoundStatus.Complete ∧
        (st.roundStatus = RoundStatus.Active →
          st'.lastRoundResult.isSome = true)) := by
  refine ⟨?_, ?_, ?_⟩
  · intro h
    unfold endGame
    rw [if_pos h]
  · intro h
    unfold endGame
    rw [if_neg (show ¬ (st.status = GameStatus.Completed) by rw [h]; simp),
      if_pos h]
  · intro hs hcq
    unfold endGame
    rw [if_neg (show ¬ (st.status = GameStatus.Completed) by rw [hs]; simp),
      if_neg (show ¬ (st.status = GameStatus.Lobby) by rw [hs]; simp)]
    dsimp only
    by_cases hra : st.roundStatus = RoundStatus.Active
    · rw [if_pos hra]
      cases hcurrent : st.currentQuestion with
      | none =>
        have := hcq hra
        rw [hcurrent] at this
        cases this
      | some q =>
        rcases endRound_active_ok cfg st nowv q hra hcurrent with
          ⟨st1, res, hok, _, hlrr⟩
        rw [hok]
        refine ⟨_, rfl, rfl, rfl, rfl, ?_⟩
        intro _
        simp only [hlrr, Option.isSome_some]
    · rw [if_neg hra]
      refine ⟨_, rfl, rfl, rfl, rfl, fun hc => absurd hc hra⟩

def c7Lobby : TriviaGameState :=
  { roomCode := "room", status := GameStatus.Lobby,
    roundStatus := RoundStatus.Idle, round := 0, roundEndsAt := none,
    currentQuestion := none, selectedQuestions := [],
    players := [⟨"p1", "Ann", 0, true, none⟩], scores := [⟨"p1", 0, 0⟩],
    lastRoundResult := none, startedAt := none, endedAt := none,
    answersByPlayer := [] }

def c7Completed : TriviaGameState :=
  { c7Lobby with status := GameStatus.Completed }

def c7Random : Nat → Nat × Nat := fun _ => (0, 1)

theorem claim_C7_witness :
    (∃ st', startGame sampleCfg c7Lobby 5 c7Random = .ok st' ∧
      st'.status = GameStatus.InProgress ∧ st'.round = 0 ∧
      st'.roundStatus = RoundStatus.Idle ∧
      st'.selectedQuestions.length =
        min sampleCfg.questionCount.toNat sampleCfg.questionSet.length) ∧
    startRound sampleCfg c7Completed 5 = .error "Game is not active" :=
  ⟨(claim_C7_lifecycle sampleCfg c7Lobby 5 c7Random).2.2.1 rfl (by decide)
      (by decide) (by decide),
   (claim_C7_lifecycle sampleCfg c7Completed 5 c7Random).2.2.2.2.2.2.2 rfl⟩

def c8Cfg : GameConfig := ⟨some "secret", 15000, 100, [sampleQ], 1⟩

def c8State : TriviaGameState :=
  { roomCode := "room", status := GameStatus.Lobby,
    roundStatus := RoundStatus.Idle, round := 0, roundEndsAt := none,
    currentQuestion := none, selectedQuestions := [],
    players := [⟨"p1", "Ann", 0, false, some 5⟩], scores := [⟨"p1", 0, 0⟩],
    lastRoundResult := none, startedAt := none, endedAt := none,
    answersByPlayer := [] }

theorem claim_C8_witness :
    ∃ st' rec,
      joinPlayer c8Cfg c8State 7 ⟨"p1", "Anne"⟩ (some " secret ") =
        .ok (st', rec) ∧
      rec.connected = true ∧
      st'.players.map (fun p => p.id) =
        c8State.players.map (fun p => p.id) := by
  have h := (claim_C8_joinPlayer c8Cfg c8State 7 ⟨"p1", "Anne"⟩
    (some " secret ") (by decide)).2.2.2 (by decide) (by decide) (by decide)
    (by decide)
  rcases h with ⟨st', rec, hok, hconn, hrejoin, _⟩
  exact ⟨st', rec, hok, hconn,
    (hrejoin ⟨⟨"p1", "Ann", 0, false, some 5⟩, by decide, rfl⟩).1⟩

def c9Active : TriviaGameState :=
  { roomCode := "room", status := GameStatus.InProgress,
    roundStatus := RoundStatus.Active, round := 1,
    roundEndsAt := some 100, currentQuestion := some sampleQ,
    selectedQuestions := [sampleQ],
    players := [⟨"p1", "Ann", 0, true, none⟩], scores := [⟨"p1", 0, 0⟩],
    lastRoundResult := none, startedAt := some 0, endedAt := none,
    answersByPlayer := [⟨"p1", 1, 10⟩] }

theorem claim_C9_witness :
    ∃ st', endGame sampleCfg c9Active 30 = .ok st' ∧
      st'.status = GameStatus.Completed ∧ st'.endedAt = some 30 ∧
      st'.roundStatus = RoundStatus.Complete ∧
      st'.lastRoundResult.isSome = true := by
  rcases (claim_C9_endGame sampleCfg c9Active 30).2.2 rfl (fun _ => rfl) with
    ⟨st', h1, h2, h3, h4, h5⟩
  exact ⟨st', h1, h2, h3, h4, h5 rfl⟩

def c9Lobby : TriviaGameState :=
  { roomCode := "room", status := GameStatus.Lobby,
    roundStatus := RoundStatus.Idle, round := 0, roundEndsAt := none,
    currentQuestion := none, selectedQuestions := [], players := [],
    scores := [], lastRoundResult := none, startedAt := none,
    endedAt := none, answersByPlayer := [] }

/-- C9 counterexample: on a `Lobby` state `endGame` throws
("Game has not started") instead of force-completing, so the claim does
not hold for every game state. -/
theorem claim_C9_counterexample :
    endGame sampleCfg c9Lobby 5 = .error "Game has not started" := rfl

end Trivir
